import Mathlib

/-!
# Verification of `apps/rocket/Commands.cpp`

A shallow embedding of the command language of the rocket launcher
(`tokenize`, `split`, `parseArg`, `Command`, the handlers and the two
dispatchers `doCommand` and `getCommandFn`) together with theorems about it.

Conventions of the embedding:

* `std::string` and `std::string_view` are lists of characters (`Str`);
  a `string_view(first, second - first)` into a buffer is the slice of the
  buffer between the two positions;
* pointers into a buffer are positions, natural numbers counted from the
  start of the buffer;
* `ErrorOr<T>` is the sum `ErrorOr T` of an error message and a value;
* the diagnostic output written to `std::cout` / `std::cerr` is not modelled.
-/

set_option autoImplicit false

namespace Rocket

/-! ## Strings and results -/

/-- Text: the characters of a `std::string` or of a `std::string_view`. -/
abbrev Str := List Char

/-- The double-quote character. -/
def dquote : Char := Char.ofNat 34

/-- The type `ErrorOr<T>`: either `Error{ msg }` or a value. -/
inductive ErrorOr (α : Type) where
  | error (msg : Str) : ErrorOr α
  | value (v : α) : ErrorOr α
  deriving DecidableEq, Repr

/-- The test `isError(x)`. -/
def isError {α : Type} : ErrorOr α → Bool
  | .error _ => true
  | .value _ => false

/-- The view `string_view(first, second - first)` into the buffer `str`. -/
def slice (str : Str) (first second : Nat) : Str :=
  (str.drop first).take (second - first)

/-! ## `tokenize` (Commands.cpp, lines 31-69) -/

/-- The `for` loop of `tokenize`, entered at its condition `first < last`
with `last = str.length`. The result is the final `inQuotes` flag and the
final `output`. The step `++second` is the `second + 1` of the recursive
calls. Reading `*second` at a position outside the buffer has no defined
behaviour in the source; the loop never does so (see `tokenizeLoop_eq`),
and the embedding stops there. -/
def tokenizeLoop (str : Str) (first second : Nat) (inQuotes : Bool)
    (output : List Str) : Bool × List Str :=
  if first < str.length then
    if second = str.length ∧ first ≠ second then
      (inQuotes, output ++ [slice str first second])
    else
      match h : str[second]? with
      | none => (inQuotes, output)
      | some c =>
        if c = ' ' ∧ inQuotes = false ∧ first ≠ second then
          tokenizeLoop str (second + 1) (second + 1) inQuotes
            (output ++ [slice str first second])
        else if c = dquote then
          if inQuotes then
            tokenizeLoop str (second + 1) (second + 1) false
              (output ++ [slice str first second])
          else
            tokenizeLoop str (second + 1) (second + 1) true output
        else
          tokenizeLoop str first (second + 1) inQuotes output
  else
    (inQuotes, output)
termination_by str.length - second
decreasing_by
  all_goals
    have hlt : second < str.length := by
      rcases List.getElem?_eq_some_iff.mp h with ⟨hlt, _⟩
      exact hlt
    omega

/-- The function `tokenize`: run the loop from the start of the line, fail
with `Unclosed quotes` when a quote is still open, else return the tokens. -/
def tokenize (str : Str) : ErrorOr (List Str) :=
  let r := tokenizeLoop str 0 0 false []
  if r.1 then .error "Unclosed quotes".toList else .value r.2

/-- The loop of `tokenize` by recursion over the characters not yet read:
`cur` is the text between `first` and `second`. -/
def tokenizeRest : List Char → Str → Bool → List Str → Bool × List Str
  | [], cur, inQuotes, output =>
    (inQuotes, if cur ≠ [] then output ++ [cur] else output)
  | c :: rest, cur, inQuotes, output =>
    if c = ' ' ∧ inQuotes = false ∧ cur ≠ [] then
      tokenizeRest rest [] inQuotes (output ++ [cur])
    else if c = dquote then
      if inQuotes then tokenizeRest rest [] false (output ++ [cur])
      else tokenizeRest rest [] true output
    else
      tokenizeRest rest (cur ++ [c]) inQuotes output

/-! ## `split` (Commands.cpp, lines 13-29) -/

/-- The call `std::find_first_of(first, last, delims)` on the buffer `str`:
the first position at or after `first` that holds one of the characters of
`delims`, and `last` when there is none. -/
def findFirstOf (str delims : Str) (first : Nat) : Nat :=
  first + (str.drop first).findIdx (fun c => decide (c ∈ delims))

/-- The `for` loop of `split`, entered at its condition
`second != last && first != last`; the step `first = second + 1` is taken on
the recursive call. A `first` beyond `last` has no defined behaviour in the
source; the loop never reaches one (see `split_eq`), and the embedding stops
there. -/
def splitLoop (str delims : Str) (first second : Nat) (output : List Str) : List Str :=
  if second ≠ str.length ∧ first ≠ str.length then
    if first < str.length then
      let second1 := findFirstOf str delims first
      let output1 :=
        if first ≠ second1 then output ++ [slice str first second1] else output
      splitLoop str delims (second1 + 1) second1 output1
    else output
  else output
termination_by str.length - first
decreasing_by
  simp only [findFirstOf]
  omega

/-- The function `split`; the default value of `delims` is one space. -/
def split (str : Str) (delims : Str := " ".toList) : List Str :=
  splitLoop str delims 0 0 []

/-! ## `atoi` and `std::to_string` (C and C++ standard libraries) -/

/-- The C predicate `isspace` in the "C" locale. -/
def isspace (c : Char) : Bool :=
  c = ' ' || c = '\t' || c = '\n' || c = Char.ofNat 11 || c = Char.ofNat 12 || c = '\r'

/-- Value of a decimal digit character. -/
def digitVal (c : Char) : Nat := c.toNat - '0'.toNat

/-- Largest value of a C `int` (32 bits). -/
def INT_MAX : Int := 2 ^ 31 - 1

/-- Smallest value of a C `int` (32 bits). -/
def INT_MIN : Int := -(2 ^ 31)

/-- Largest value of a C `long` of 64 bits. -/
def LONG_MAX : Int := 9223372036854775807

/-- Smallest value of a C `long` of 64 bits. -/
def LONG_MIN : Int := -9223372036854775808

/-- The sign that `atoi` reads: after the leading white space, whether a
minus sign stands before the digits, and the text after the optional
sign. -/
def atoiSign (s : Str) : Bool × Str :=
  match s.dropWhile isspace with
  | [] => (false, [])
  | c :: t => if c = '-' then (true, t) else if c = '+' then (false, t) else (false, c :: t)

/-- The number that `atoi` reads: the value of the decimal digits that
follow the leading white space and the optional sign, as far as they go; 0
when there is no digit. -/
def atoiMagnitude (s : Str) : Nat :=
  ((atoiSign s).2.takeWhile Char.isDigit).foldl (fun a c => 10 * a + digitVal c) 0

/-- The conversion of a `long` to `int`: the low 32 bits, in two's
complement. -/
def longToInt (x : Int) : Int := (x + 2147483648) % 4294967296 - 2147483648

/-- The C library function `strtol(s, NULL, 10)`: the number read, with its
sign, kept within `LONG_MIN` and `LONG_MAX`. -/
def strtol (s : Str) : Int :=
  if (atoiSign s).1 then max (-(atoiMagnitude s : Int)) LONG_MIN
  else min (atoiMagnitude s : Int) LONG_MAX

/-- The C library function `atoi`: skip leading white space, read an optional
sign, then read decimal digits as far as they go; no digits give 0. When the
number read fits an `int` the result is that number with its sign. A number
that does not fit is undefined in ISO C; there the embedding follows the
usual implementation `(int) strtol(s, NULL, 10)` with a `long` of 64 bits;
what is proved of the finger count is proved for numbers that fit. -/
def atoi (s : Str) : Int := longToInt (strtol s)

/-- The C++ library function `std::to_string` on an unsigned integer: its
decimal digits. -/
def to_string (n : Nat) : Str := Nat.toDigits 10 n

/-! ## Gesture descriptors and `parseArg` (Commands.cpp, lines 71-150) -/

/-- The enumeration `SwipeGesture::Direction`. -/
inductive SwipeDirection where
  | Up | Down | Left | Right
  deriving DecidableEq, Repr

/-- The enumeration `PinchGesture::Direction`. -/
inductive PinchDirection where
  | In | Out
  deriving DecidableEq, Repr

/-- The variant type of the field `ActionConfig::direction`. -/
inductive Direction where
  | swipe (d : SwipeDirection)
  | pinch (d : PinchDirection)
  deriving DecidableEq, Repr

/-- The enumeration `ActionConfig::Type`. -/
inductive ActionType where
  | Swipe | Pinch | Tap
  deriving DecidableEq, Repr

/-- The structure `ActionConfig`, with the three fields that
`parseArg<ActionConfig>` assigns; `fingers` holds the `int` that `atoi`
returns. -/
structure ActionConfig where
  type : ActionType
  direction : Direction
  fingers : Int
  deriving DecidableEq, Repr

/-- Modelled from the spec: the declarations of `ActionConfig` and of the
two direction enumerations are not part of `Commands.cpp`. A
default-constructed `direction` holds the first alternative of the variant
at its first enumerator; the spec lists the swipe vocabulary as
`Up/Down/Left/Right`. This is the value left in the field by `Tap`, for
which the field has no meaning. -/
def defaultDirection : Direction := .swipe .Up

/-- The keyword of a swipe direction in the gesture grammar of the spec,
`Swipe:<Up|Down|Left|Right>:<fingers>`. -/
def SwipeDirection.keyword : SwipeDirection → Str
  | .Up => "Up".toList
  | .Down => "Down".toList
  | .Left => "Left".toList
  | .Right => "Right".toList

/-- The keyword of a pinch direction in the gesture grammar of the spec,
`Pinch:<In|Out>:<fingers>`. -/
def PinchDirection.keyword : PinchDirection → Str
  | .In => "In".toList
  | .Out => "Out".toList

/-- The shape that the gesture grammar of the spec asks of the pieces of a
token: `[Swipe, d, f]` with `d` one of `Up`, `Down`, `Left`, `Right`, or
`[Pinch, d, f]` with `d` one of `In`, `Out`, or `[Tap, f]`; `f` is any
text. -/
def gestureShape (pieces : List Str) : Bool :=
  match pieces with
  | [kind, d, _] =>
    decide ((kind = "Swipe".toList ∧
        d ∈ ["Up".toList, "Down".toList, "Left".toList, "Right".toList]) ∨
      (kind = "Pinch".toList ∧ d ∈ ["In".toList, "Out".toList]))
  | [kind, _] => decide (kind = "Tap".toList)
  | _ => false

/-- The specialisation `parseArg<ActionConfig>`. -/
def parseArg_ActionConfig (arg : Str) : ErrorOr ActionConfig :=
  let tokens := split arg ":".toList
  match tokens with
  | [] => .error "Empty action".toList
  | front :: _ =>
    if front = "Swipe".toList then
      if tokens.length ≠ 3 then
        .error "Expected Swipe:direction:fingers".toList
      else
        let dir : ErrorOr Direction :=
          if tokens.getD 1 [] = "Up".toList then .value (.swipe .Up)
          else if tokens.getD 1 [] = "Down".toList then .value (.swipe .Down)
          else if tokens.getD 1 [] = "Left".toList then .value (.swipe .Left)
          else if tokens.getD 1 [] = "Right".toList then .value (.swipe .Right)
          else .error ("Unknown direction: ".toList ++ tokens.getD 1 [])
        match dir with
        | .error msg => .error msg
        | .value d =>
          .value { type := .Swipe, direction := d, fingers := atoi (tokens.getD 2 []) }
    else if front = "Pinch".toList then
      if tokens.length ≠ 3 then
        .error "Expected Pinch:direction:fingers".toList
      else
        let dir : ErrorOr Direction :=
          if tokens.getD 1 [] = "In".toList then .value (.pinch .In)
          else if tokens.getD 1 [] = "Out".toList then .value (.pinch .Out)
          else .error ("Unknown direction: ".toList ++ tokens.getD 1 [])
        match dir with
        | .error msg => .error msg
        | .value d =>
          .value { type := .Pinch, direction := d, fingers := atoi (tokens.getD 2 []) }
    else if front = "Tap".toList then
      if tokens.length ≠ 2 then
        .error "Expected Tap:fingers".toList
      else
        .value { type := .Tap, direction := defaultDirection,
                 fingers := atoi (tokens.getD 1 []) }
    else
      .error ("Unknown gesture: ".toList ++ front)

/-- The parameter types for which `parseArg` has a specialisation. -/
inductive ArgType where
  | string_view | string | ActionConfig
  deriving DecidableEq, Repr

/-- A parsed argument: text (borrowed or owned) or a gesture descriptor. -/
inductive ArgVal where
  | text (s : Str)
  | action (a : ActionConfig)
  deriving DecidableEq, Repr

/-- The function template `parseArg<V>` at its three specialisations. -/
def parseArg : ArgType → Str → ErrorOr ArgVal
  | .string_view, arg => .value (.text arg)
  | .string, arg => .value (.text arg)
  | .ActionConfig, arg =>
    match parseArg_ActionConfig arg with
    | .error msg => .error msg
    | .value a => .value (.action a)

/-! ## `anyError`, `ToOwning` and `Command::parseArgs` (lines 152-200) -/

/-- The operand `isError(args) ? getError(args).msg + ", " : ""` of the fold
in `anyError`. -/
def errorPart {α : Type} : ErrorOr α → Str
  | .error msg => msg ++ ", ".toList
  | .value _ => []

/-- The dereference `*args` of an `ErrorOr` holding a value. -/
def deref {α : Type} : ErrorOr α → Option α
  | .error _ => none
  | .value v => some v

/-- The function template `anyError`: the tuple of the values when no
argument is an error, else one error whose message is the right fold
`part₁ + (part₂ + (... + ""))` over the arguments. -/
def anyError {α : Type} (args : List (ErrorOr α)) : ErrorOr (List α) :=
  let hasError := args.foldr (fun a b => isError a || b) false
  if !hasError then .value (args.filterMap deref)
  else .error (args.foldr (fun a acc => errorPart a ++ acc) [])

/-- The alias template `ToOwning`. -/
def ToOwning : ArgType → ArgType
  | .string_view => .string
  | t => t

/-- The function template `Command::parseArgs<Args...>`. The source reads
`args[0]` and `args.size() - 1` in the error branch; its callers pass at
least the command name. -/
def parseArgs (Args : List ArgType) (args : List Str) : ErrorOr (List ArgVal) :=
  if args.length ≠ Args.length + 1 then
    .error ("Invalid number of arguments for '".toList ++ args.headD [] ++
      "', expected ".toList ++ to_string Args.length ++ " got ".toList ++
      to_string (args.length - 1))
  else
    anyError (List.zipWith parseArg Args args.tail)

/-! ## The launcher (collaborator of `Commands.cpp`) -/

/-- Modelled from the spec: the class `App` is declared outside
`Commands.cpp`. The spec gives each entry of `apps` a running flag, a path
identifier and a last-activated timestamp; `launch` looks an app up by its
name. `running` is what `isRunning()` and `runInfo.has_value()` read. -/
structure App where
  name : Str
  path : Str
  running : Bool
  lastActivated : Nat
  deriving DecidableEq, Repr

/-- The handlers of the command table, as the erased pointer `void* fn`. -/
inductive Fn where
  | help | launch | «show» | hide | switchTo | onAction
  deriving DecidableEq, Repr

/-- The closure returned by `parseFn`: it captures the handler and the tuple
of owned arguments (and a reference to the launcher, which is the launcher
it is later run on). -/
structure Closure where
  fn : Fn
  args : List ArgVal
  deriving DecidableEq, Repr

/-- The closure returned by `getCommandFn`, a `std::function<void()>`: it
captures the closure of `parseFn`, calls it and drops its result. -/
structure VoidFn where
  fn : Closure
  deriving DecidableEq, Repr

/-- The structure `Action`, a binding of a gesture to a closure. -/
structure Action where
  config : ActionConfig
  command : VoidFn
  deriving DecidableEq, Repr

/-- The part `launcher.config` that the commands use. -/
structure Config where
  actions : List Action
  deriving DecidableEq, Repr

/-- A call into the launcher whose effect lies outside `Commands.cpp`;
`switchApp` carries the position in `apps` of the app it is given. -/
inductive Call where
  | switchApp (app : Nat)
  | drawAppsLauncher
  | closeLauncher
  deriving DecidableEq, Repr

/-- Modelled from the spec: the class `Launcher` is declared outside
`Commands.cpp`. The spec gives it the ordered sequence `apps`,
`currentAppPath` and the mutable sequence `config.actions`; window
switching and rendering are outside its scope, so the calls
`switchApp`, `drawAppsLauncher` and `closeLauncher` are recorded, in
order, in `calls`. -/
structure Launcher where
  apps : List App
  currentAppPath : Str
  config : Config
  calls : List Call
  deriving DecidableEq, Repr

/-- Modelled from the spec: `getApp(name) -> App?`, the look-up of an app by
name, as the position of the first app of that name. -/
def Launcher.getApp (launcher : Launcher) (name : Str) : Option Nat :=
  launcher.apps.findIdx? (fun app => decide (app.name = name))

/-- Modelled from the spec: `getCurrentApp()`, the app whose path is
`currentAppPath`, as its position in `apps`; none when no app has that
path. -/
def Launcher.getCurrentApp (launcher : Launcher) : Option Nat :=
  launcher.apps.findIdx? (fun app => decide (app.path = launcher.currentAppPath))

/-- Modelled from the spec: `switchApp(App)` switches the active app to the
given one, the app at position `app` of `apps`: the call is recorded and
`currentAppPath` becomes the path of that app. -/
def Launcher.switchApp (launcher : Launcher) (app : Nat) : Launcher :=
  { launcher with
    currentAppPath := ((launcher.apps[app]?).map App.path).getD launcher.currentAppPath
    calls := launcher.calls ++ [.switchApp app] }

/-- Modelled from the spec: `drawAppsLauncher()` opens the launcher surface;
the call is recorded. -/
def Launcher.drawAppsLauncher (launcher : Launcher) : Launcher :=
  { launcher with calls := launcher.calls ++ [.drawAppsLauncher] }

/-- Modelled from the spec: `closeLauncher()` closes the launcher surface;
the call is recorded. -/
def Launcher.closeLauncher (launcher : Launcher) : Launcher :=
  { launcher with calls := launcher.calls ++ [.closeLauncher] }

/-- The type `CommandResult`, that is `ErrorOr<std::string>`. -/
abbrev CommandResult := ErrorOr Str

/-! ## The command table (Commands.cpp, lines 178-259 and 367-380) -/

/-- The structure `Command`: the handler `fn`, the parameter pack `Args` of
the handler's signature `CommandResult (*)(Launcher&, Args...)`, from which
the constructor builds `cmdFn` and `parseFn`, and the help text. -/
structure Command where
  fn : Fn
  Args : List ArgType
  help : Str
  deriving DecidableEq, Repr

/-- The table `commands`. The source keeps it in a `std::unordered_map`,
whose order of iteration is not specified; here it is in the order of its
initialiser. -/
def commands : List (Str × Command) :=
  [ ("help".toList, ⟨.help, [], "- Show help".toList⟩),
    ("launch".toList,
      ⟨.launch, [.string_view], "- launch <app name> - Start or switch to app".toList⟩),
    ("show".toList, ⟨.«show», [], "- Show the launcher".toList⟩),
    ("hide".toList, ⟨.hide, [], "- Hide the launcher".toList⟩),
    ("switch".toList,
      ⟨.switchTo, [.string_view],
        ("- switch <next|prev|last> - Switch to the next, previous or last " ++
          "running app").toList⟩),
    ("on".toList,
      ⟨.onAction, [.ActionConfig, .string_view],
        "- on <gesture> <command> - execute command when the given action occurs".toList⟩) ]

/-- The look-up `commands.find(name)`. -/
def findCommand (name : Str) : Option Command :=
  (commands.find? (fun entry => decide (entry.1 = name))).map Prod.snd

/-! ## The handlers (Commands.cpp, lines 261-393) -/

/-- The handler `help`. -/
def help (launcher : Launcher) : CommandResult × Launcher :=
  (.value (commands.foldl
      (fun ss entry => ss ++ "\t".toList ++ entry.1 ++ " ".toList ++ entry.2.help ++ "\n".toList)
      "Commands:\n".toList),
    launcher)

/-- The handler `launch`. -/
def launch (launcher : Launcher) (name : Str) : CommandResult × Launcher :=
  match launcher.getApp name with
  | none => (.error ("App not found ".toList ++ name), launcher)
  | some app => (.value ("Launching: ".toList ++ name), launcher.switchApp app)

/-- The handler `show`. -/
def «show» (launcher : Launcher) : CommandResult × Launcher :=
  (.value "OK".toList, launcher.drawAppsLauncher)

/-- The handler `hide`. -/
def hide (launcher : Launcher) : CommandResult × Launcher :=
  (.value "OK".toList, launcher.closeLauncher)

/-- The `while` loop of `getNext` over the sequence `seq`, whose `begin` is
position 0 and whose `end` is `seq.length`, entered at its condition
`it != start`. The loop need not stop, so it runs on `fuel`: `none` when the
fuel is used up. Reading `*it` outside the sequence has no defined
behaviour in the source; the embedding gives no result there. -/
def getNextLoop (seq : List App) (start : Nat) : Nat → Nat → Option Nat
  | 0, _ => none
  | fuel + 1, it =>
    if it ≠ start then
      let it1 := if it = seq.length then 0 else it
      match seq[it1]? with
      | none => none
      | some app => if app.running then some it1 else getNextLoop seq start fuel (it1 + 1)
    else some it

/-- The function template `getNext(start, begin, end)`. -/
def getNext (fuel : Nat) (seq : List App) (start : Nat) : Option Nat :=
  getNextLoop seq start fuel (start + 1)

/-- Whether position `p` of `seq` holds a running app. -/
def runningAt (seq : List App) (p : Nat) : Bool :=
  match seq[p]? with
  | some app => app.running
  | none => false

/-- The first running app met when walking `seq` forward from just past
position `start`, wrapping from the end to the beginning: the first running
one among the positions `start + 1`, `start + 2`, ...,
`start + seq.length - 1`, each taken modulo `seq.length`; none when none of
them is running. -/
def firstRunningAfter (seq : List App) (start : Nat) : Option Nat :=
  ((List.range' 1 (seq.length - 1)).map (fun d => (start + d) % seq.length)).find?
    (runningAt seq)

/-- The first running app met when walking `seq` backward from just before
position `start`, wrapping from the beginning to the end: the first running
one among the positions `start - 1`, `start - 2`, ...,
`start - (seq.length - 1)`, each taken modulo `seq.length`. -/
def firstRunningBefore (seq : List App) (start : Nat) : Option Nat :=
  ((List.range' 1 (seq.length - 1)).map
    (fun d => (start + seq.length - d) % seq.length)).find? (runningAt seq)

/-- The loop of the branch `last` of `switchTo`: `lastApp` after the apps in
`apps`, which stand at the positions from `idx` on. -/
def lastLoop (all : List App) (currentApp : Option Nat) :
    List App → Nat → Option Nat → Option Nat
  | [], _, lastApp => lastApp
  | app :: rest, idx, lastApp =>
    let better : Bool :=
      match lastApp with
      | none => true
      | some j => decide (app.lastActivated > ((all[j]?).map App.lastActivated).getD 0)
    if app.running ∧ some idx ≠ currentApp ∧ better = true then
      lastLoop all currentApp rest (idx + 1) (some idx)
    else
      lastLoop all currentApp rest (idx + 1) lastApp

/-- The time stamp `lastActivated` of the app at position `p` of `seq`. -/
def lastActivatedAt (seq : List App) (p : Nat) : Nat :=
  ((seq[p]?).map App.lastActivated).getD 0

/-- The apps among which `switch last` chooses: position `p` holds a running
app and is not the position `currentApp`. -/
def lastCandidate (seq : List App) (currentApp : Option Nat) (p : Nat) : Prop :=
  runningAt seq p = true ∧ some p ≠ currentApp

/-- The choice of `switch last` among the first `m` apps: none when none of
them is a candidate, else the candidate of greatest time stamp, the earliest
one among ties. -/
def LastAmong (seq : List App) (currentApp : Option Nat) (m : Nat) : Option Nat → Prop
  | none => ∀ k, k < m → ¬ lastCandidate seq currentApp k
  | some j => j < m ∧ lastCandidate seq currentApp j ∧
      ∀ k, k < m → lastCandidate seq currentApp k →
        lastActivatedAt seq k ≤ lastActivatedAt seq j ∧
        (lastActivatedAt seq k = lastActivatedAt seq j → j ≤ k)

/-- The handler `switchTo`. For `prev` the sequence walked is `apps` in
reverse, and position `it` of it is position `apps.length - 1 - it` of
`apps`. No result when `getNext` does not return. -/
def switchTo (fuel : Nat) (launcher : Launcher) (arg : Str) :
    Option (CommandResult × Launcher) :=
  if arg = "next".toList then
    let start := launcher.apps.findIdx (fun app => decide (app.path = launcher.currentAppPath))
    if launcher.currentAppPath = [] ∨ start = launcher.apps.length then
      some (.value "No apps running".toList, launcher)
    else
      match getNext fuel launcher.apps start with
      | none => none
      | some it => some (.value "OK".toList, launcher.switchApp it)
  else if arg = "prev".toList then
    let seq := launcher.apps.reverse
    let start := seq.findIdx (fun app => decide (app.path = launcher.currentAppPath))
    if launcher.currentAppPath = [] ∨ start = seq.length then
      some (.value "No apps running".toList, launcher)
    else
      match getNext fuel seq start with
      | none => none
      | some it => some (.value "OK".toList, launcher.switchApp (launcher.apps.length - 1 - it))
  else if arg = "last".toList then
    match lastLoop launcher.apps launcher.getCurrentApp launcher.apps 0 none with
    | none => some (.value "No other apps".toList, launcher)
    | some lastApp => some (.value "OK".toList, launcher.switchApp lastApp)
  else
    some (.error ("Unknown switch target, expected <next|prev|last>, got: ".toList ++ arg),
      launcher)

/-- The adapter `parseFn` built by the constructor of `Command`, reached
through `Command::parse`. -/
def Command.parse (cmd : Command) (_launcher : Launcher) (args : List Str) :
    ErrorOr Closure :=
  match parseArgs (cmd.Args.map ToOwning) args with
  | .error msg => .error msg
  | .value argTuple => .value { fn := cmd.fn, args := argTuple }

/-- The function `getCommandFn`. -/
def getCommandFn (launcher : Launcher) (command : Str) : ErrorOr VoidFn :=
  match tokenize command with
  | .error msg => .error msg
  | .value tokens =>
    match tokens with
    | [] => .error "Empty command".toList
    | front :: _ =>
      match findCommand front with
      | none => .error ("Command ".toList ++ front ++ " not found".toList)
      | some cmd =>
        match cmd.parse launcher tokens with
        | .error msg => .error msg
        | .value parsedFn => .value { fn := parsedFn }

/-- The handler `onAction`. -/
def onAction (launcher : Launcher) (action : ActionConfig) (command : Str) :
    CommandResult × Launcher :=
  match getCommandFn launcher command with
  | .error msg =>
    (.error ("Can't add action: ".toList ++ msg ++ " for command: ".toList ++ [dquote] ++
      command ++ [dquote]), launcher)
  | .value fn =>
    (.value "OK".toList,
      { launcher with
        config := { launcher.config with
          actions := launcher.config.actions ++ [{ config := action, command := fn }] } })

/-- The call `std::apply(fnPtr, argTuple)` of a handler on the launcher and
a tuple of arguments. The last case, a tuple that does not fit the
handler's signature, is excluded by the types of the source. -/
def applyFn : Fn → Nat → Launcher → List ArgVal → Option (CommandResult × Launcher)
  | .help, _, launcher, [] => some (help launcher)
  | .launch, _, launcher, [.text name] => some (launch launcher name)
  | .«show», _, launcher, [] => some («show» launcher)
  | .hide, _, launcher, [] => some (hide launcher)
  | .switchTo, fuel, launcher, [.text arg] => switchTo fuel launcher arg
  | .onAction, _, launcher, [.action action, .text command] =>
    some (onAction launcher action command)
  | _, _, _, _ => none

/-- The adapter `cmdFn` built by the constructor of `Command`, reached
through `Command::operator()`: `none` when the handler does not return. -/
def Command.call (cmd : Command) (fuel : Nat) (launcher : Launcher) (args : List Str) :
    Option (CommandResult × Launcher) :=
  match parseArgs cmd.Args args with
  | .error msg => some (.error msg, launcher)
  | .value argTuple => applyFn cmd.fn fuel launcher argTuple

/-- Running the closure returned by `parseFn`. -/
def Closure.run (c : Closure) (fuel : Nat) (launcher : Launcher) :
    Option (CommandResult × Launcher) :=
  applyFn c.fn fuel launcher c.args

/-- Running the closure returned by `getCommandFn`: the result of the inner
closure goes to `std::cerr` when it is an error and is dropped. -/
def VoidFn.run (f : VoidFn) (fuel : Nat) (launcher : Launcher) : Option Launcher :=
  (f.fn.run fuel launcher).map Prod.snd

/-- A launcher state with three apps, the first and the third running, the
first being the current app. -/
def demoLauncher : Launcher :=
  { apps := [⟨"A".toList, "/a".toList, true, 3⟩, ⟨"B".toList, "/b".toList, false, 5⟩,
      ⟨"C".toList, "/c".toList, true, 1⟩]
    currentAppPath := "/a".toList
    config := ⟨[]⟩
    calls := [] }

/-! ## `doCommand` (Commands.cpp, lines 429-449) -/

/-- The function `doCommand`: `none` when the handler does not return. -/
def doCommand (fuel : Nat) (launcher : Launcher) (command : Str) :
    Option (CommandResult × Launcher) :=
  match tokenize command with
  | .error msg => some (.error msg, launcher)
  | .value tokens =>
    match tokens with
    | [] => some (.value [], launcher)
    | front :: _ =>
      match findCommand front with
      | none => some (.error ("Command ".toList ++ front ++ " not found".toList), launcher)
      | some cmd => cmd.call fuel launcher tokens

/-! # Theorems -/

/-! ## The loop of `tokenize` over the characters not yet read -/

theorem slice_mid (pre cur rest : Str) :
    slice (pre ++ cur ++ rest) pre.length (pre.length + cur.length) = cur := by
  simp [slice, List.append_assoc]

theorem tokenizeLoop_eq_aux (rest : List Char) :
    ∀ (pre cur : Str) (q : Bool) (out : List Str),
      tokenizeLoop (pre ++ cur ++ rest) pre.length (pre.length + cur.length) q out
        = tokenizeRest rest cur q out := by
  induction rest with
  | nil =>
    intro pre cur q out
    rw [tokenizeLoop]
    have hs := slice_mid pre cur []
    simp only [List.append_nil] at hs ⊢
    by_cases hc : cur = []
    · subst hc; simp [tokenizeRest]
    · have hpos : 0 < cur.length := List.length_pos.mpr hc
      simp [tokenizeRest, hc, hs]
  | cons c rest ih =>
    intro pre cur q out
    rw [tokenizeLoop]
    have hget : (pre ++ cur ++ c :: rest)[pre.length + cur.length]? = some c := by
      rw [List.getElem?_append_right (by simp)]
      simp
    have hstep : ∀ (q1 : Bool) (out1 : List Str),
        tokenizeLoop (pre ++ cur ++ c :: rest) (pre.length + cur.length + 1)
          (pre.length + cur.length + 1) q1 out1 = tokenizeRest rest [] q1 out1 := by
      intro q1 out1
      have h := ih (pre ++ cur ++ [c]) [] q1 out1
      simpa [List.append_assoc, Nat.add_assoc] using h
    have hkeep : tokenizeLoop (pre ++ cur ++ c :: rest) pre.length
          (pre.length + cur.length + 1) q out = tokenizeRest rest (cur ++ [c]) q out := by
      have h := ih pre (cur ++ [c]) q out
      simpa [List.append_assoc, Nat.add_assoc] using h
    have hne : (pre.length ≠ pre.length + cur.length) ↔ cur ≠ [] := by
      rw [← List.length_pos]; omega
    have hlt : pre.length < (pre ++ cur ++ c :: rest).length := by
      simp only [List.length_append, List.length_cons]; omega
    have hnl : ¬ (pre.length + cur.length = (pre ++ cur ++ c :: rest).length ∧
        pre.length ≠ pre.length + cur.length) := by
      simp only [List.length_append, List.length_cons]; omega
    rw [if_pos hlt, if_neg hnl, slice_mid]
    split
    · next h => rw [hget] at h; cases h
    · next c1 h =>
      rw [hget] at h
      cases h
      simp only [hstep, hkeep, hne, tokenizeRest]

/-- The loop of `tokenize`, run from the start of the line, never reads
outside the line and computes what the recursion over the characters
computes. -/
theorem tokenizeLoop_eq (str : Str) :
    tokenizeLoop str 0 0 false [] = tokenizeRest str [] false [] := by
  simpa using tokenizeLoop_eq_aux str [] [] false []

theorem tokenize_eq (str : Str) :
    tokenize str =
      if (tokenizeRest str [] false []).1 then .error "Unclosed quotes".toList
      else .value (tokenizeRest str [] false []).2 := by
  simp only [tokenize, tokenizeLoop_eq]

theorem space_ne_dquote : ' ' ≠ dquote := by decide

/-- Outside quotes, a run of characters that are neither a space nor a
double quote is added to the text between `first` and `second`. -/
theorem tokenizeRest_word (w : Str) (hs : ' ' ∉ w) (hq : dquote ∉ w) :
    ∀ (rest cur : Str) (out : List Str),
      tokenizeRest (w ++ rest) cur false out = tokenizeRest rest (cur ++ w) false out := by
  induction w with
  | nil => intro rest cur out; simp
  | cons c w ih =>
    intro rest cur out
    have hc1 : c ≠ ' ' := fun h => hs (by simp [h])
    have hc2 : c ≠ dquote := fun h => hq (by simp [h])
    have hs1 : ' ' ∉ w := fun h => hs (List.mem_cons_of_mem _ h)
    have hq1 : dquote ∉ w := fun h => hq (List.mem_cons_of_mem _ h)
    simp only [List.cons_append, tokenizeRest, hc1, hc2, false_and, if_false, List.append_eq]
    rw [ih hs1 hq1]
    simp

/-- Inside quotes, a run of characters without a double quote is added to
the text between `first` and `second`. -/
theorem tokenizeRest_quoted (w : Str) (hq : dquote ∉ w) :
    ∀ (rest cur : Str) (out : List Str),
      tokenizeRest (w ++ rest) cur true out = tokenizeRest rest (cur ++ w) true out := by
  induction w with
  | nil => intro rest cur out; simp
  | cons c w ih =>
    intro rest cur out
    have hc2 : c ≠ dquote := fun h => hq (by simp [h])
    have hq1 : dquote ∉ w := fun h => hq (List.mem_cons_of_mem _ h)
    simp only [List.cons_append, tokenizeRest, hc2, if_false, List.append_eq,
      Bool.true_eq_false, false_and, and_false]
    rw [ih hq1]
    simp

theorem tokenizeRest_words (ws : List Str)
    (hw : ∀ w ∈ ws, w ≠ [] ∧ ' ' ∉ w ∧ dquote ∉ w) :
    ∀ out : List Str,
      tokenizeRest (" ".toList.intercalate ws) [] false out = (false, out ++ ws) := by
  induction ws with
  | nil => intro out; simp [List.intercalate, tokenizeRest]
  | cons w ws ih =>
    intro out
    obtain ⟨hne, hs, hq⟩ := hw w (List.mem_cons_self _ _)
    have hw1 : ∀ v ∈ ws, v ≠ [] ∧ ' ' ∉ v ∧ dquote ∉ v :=
      fun v hv => hw v (List.mem_cons_of_mem _ hv)
    cases ws with
    | nil =>
      have h := tokenizeRest_word w hs hq [] [] out
      simp only [List.append_nil, List.nil_append] at h
      simp [List.intercalate, h, tokenizeRest, hne]
    | cons v vs =>
      have h := tokenizeRest_word w hs hq (' ' :: " ".toList.intercalate (v :: vs)) [] out
      have hi : " ".toList.intercalate (w :: v :: vs)
          = w ++ ' ' :: " ".toList.intercalate (v :: vs) := by
        simp [List.intercalate]
      rw [hi, h]
      simp only [List.nil_append, tokenizeRest, hne, ne_eq, not_false_eq_true, and_self,
        if_true]
      rw [ih hw1]
      simp

/-- C1. For every list of words, each word non-empty and containing neither
a space nor a double quote, `tokenize` applied to the words joined by single
spaces succeeds and returns exactly that list of words, in order. -/
theorem tokenize_joined_words (ws : List Str)
    (hw : ∀ w ∈ ws, w ≠ [] ∧ ' ' ∉ w ∧ dquote ∉ w) :
    tokenize (" ".toList.intercalate ws) = .value ws := by
  rw [tokenize_eq, tokenizeRest_words ws hw]
  simp

theorem tokenize_joined_words_witness :
    (∀ w ∈ ["a".toList, "b".toList, "c".toList], w ≠ [] ∧ ' ' ∉ w ∧ dquote ∉ w) ∧
    tokenize (" ".toList.intercalate ["a".toList, "b".toList, "c".toList])
      = .value ["a".toList, "b".toList, "c".toList] :=
  ⟨by decide, tokenize_joined_words _ (by decide)⟩

/-- C2. On the line of three spaces `tokenize` returns two tokens, each a
single space, and not the empty token sequence: a space read while `first`
equals `second` is kept as the first character of the next token. -/
theorem tokenize_three_spaces :
    tokenize "   ".toList = .value [" ".toList, " ".toList] := by
  rw [tokenize_eq]
  decide

/-- C3. On the line `a "b c" d` the last token returned by `tokenize` is
` d`, with the space that follows the closing quote, and not `d`. -/
theorem tokenize_quoted_middle :
    tokenize ("a ".toList ++ [dquote] ++ "b c".toList ++ [dquote] ++ " d".toList)
      = .value ["a".toList, "b c".toList, " d".toList] := by
  rw [tokenize_eq]
  decide

/-- On a line made of a word, a space, a quoted span, a space and a word,
`tokenize` returns three tokens; the third one starts with the space that
follows the closing quote. -/
theorem tokenize_word_quoted_word (w1 q w2 : Str)
    (h1 : w1 ≠ [] ∧ ' ' ∉ w1 ∧ dquote ∉ w1) (hq : dquote ∉ q)
    (h2 : ' ' ∉ w2 ∧ dquote ∉ w2) :
    tokenize (w1 ++ ' ' :: dquote :: (q ++ dquote :: ' ' :: w2))
      = .value [w1, q, ' ' :: w2] := by
  have hsd : ¬ (' ' = dquote) := space_ne_dquote
  rw [tokenize_eq, tokenizeRest_word w1 h1.2.1 h1.2.2]
  simp only [List.nil_append, tokenizeRest, h1.1, ne_eq, not_false_eq_true, and_self,
    if_true, hsd, if_false, Bool.false_eq_true]
  rw [tokenizeRest_quoted q hq]
  simp only [List.nil_append, tokenizeRest, hsd, if_false, if_true, Bool.true_eq_false,
    false_and, not_true_eq_false, and_false]
  have h := tokenizeRest_word w2 h2.1 h2.2 [] [' '] [w1, q]
  simp only [List.append_nil] at h
  simp [h, tokenizeRest]

/-- The flag `inQuotes` at the end of the loop: flipped once for each double
quote read. -/
theorem tokenizeRest_inQuotes (rest : List Char) :
    ∀ (cur : Str) (q : Bool) (out : List Str),
      (tokenizeRest rest cur q out).1 = (q != decide (rest.count dquote % 2 = 1)) := by
  induction rest with
  | nil => intro cur q out; simp [tokenizeRest]
  | cons c rest ih =>
    intro cur q out
    by_cases hc : c = dquote
    · subst hc
      have h1 : ¬ (dquote = ' ') := fun h => space_ne_dquote h.symm
      simp only [tokenizeRest, h1, false_and, if_false, if_true, List.count_cons_self]
      cases q
      · simp only [Bool.false_eq_true, if_false, ih]
        by_cases hp : rest.count dquote % 2 = 1
        · have : ¬ ((rest.count dquote + 1) % 2 = 1) := by omega
          simp [hp, this]
        · have : (rest.count dquote + 1) % 2 = 1 := by omega
          simp [hp, this]
      · simp only [if_true, ih]
        by_cases hp : rest.count dquote % 2 = 1
        · have : ¬ ((rest.count dquote + 1) % 2 = 1) := by omega
          simp [hp, this]
        · have : (rest.count dquote + 1) % 2 = 1 := by omega
          simp [hp, this]
    · have hcount : (c :: rest).count dquote = rest.count dquote := by
        rw [List.count_cons_of_ne (Ne.symm hc)]
      simp only [tokenizeRest, hc, if_false, hcount]
      split
      · exact ih _ _ _
      · exact ih _ _ _

/-- C4. `tokenize` fails, with the error `Unclosed quotes`, exactly on the
lines with an odd number of double quotes, and succeeds exactly on the lines
with an even number of them. -/
theorem tokenize_unclosed_iff (str : Str) :
    (tokenize str = .error "Unclosed quotes".toList ↔ str.count dquote % 2 = 1) ∧
    (isError (tokenize str) = false ↔ str.count dquote % 2 = 0) := by
  have h := tokenizeRest_inQuotes str [] false []
  rw [tokenize_eq, h]
  by_cases hp : str.count dquote % 2 = 1
  · have h0 : ¬ (str.count dquote % 2 = 0) := by omega
    simp [hp, isError]
  · have h0 : str.count dquote % 2 = 0 := by omega
    simp [hp, h0, isError]
/-! ## `split` as the non-empty pieces between delimiters -/

theorem delim_decompose (p : Char → Bool) (rest : List Char) :
    ∃ seg : List Char, (∀ x ∈ seg, ¬ p x = true) ∧
      (rest = seg ∨ ∃ d tail, p d = true ∧ rest = seg ++ d :: tail) := by
  induction rest with
  | nil => exact ⟨[], by simp, Or.inl rfl⟩
  | cons c rest ih =>
    by_cases hc : p c = true
    · exact ⟨[], by simp, Or.inr ⟨c, rest, hc, rfl⟩⟩
    · obtain ⟨seg, hseg, h⟩ := ih
      refine ⟨c :: seg, ?_, ?_⟩
      · intro x hx
        rcases List.mem_cons.mp hx with rfl | hx
        · exact hc
        · exact hseg x hx
      · rcases h with h | ⟨d, tail, hd, h⟩
        · exact Or.inl (by rw [h])
        · exact Or.inr ⟨d, tail, hd, by rw [h]; rfl⟩

theorem findIdx_seg (p : Char → Bool) (seg : List Char) (hseg : ∀ x ∈ seg, ¬ p x = true) :
    seg.findIdx p = seg.length := by
  apply List.findIdx_eq_length_of_false
  intro x hx
  simpa using hseg x hx

theorem findIdx_seg_delim (p : Char → Bool) (seg : List Char)
    (hseg : ∀ x ∈ seg, ¬ p x = true) (d : Char) (hd : p d = true) (tail : List Char) :
    (seg ++ d :: tail).findIdx p = seg.length := by
  induction seg with
  | nil => simp [List.findIdx_cons, hd]
  | cons c seg ih =>
    have hc : p c = false := by simpa using hseg c (List.mem_cons_self _ _)
    have := ih (fun x hx => hseg x (List.mem_cons_of_mem _ hx))
    simp [List.findIdx_cons, hc, this]

theorem slice_append (pre seg rest : Str) :
    slice (pre ++ (seg ++ rest)) pre.length (pre.length + seg.length) = seg := by
  simp [slice]

theorem splitLoop_eq_aux (delims : Str) (n : Nat) :
    ∀ (rest pre : Str) (out : List Str) (second : Nat),
      rest.length ≤ n → second ≠ (pre ++ rest).length →
      splitLoop (pre ++ rest) delims pre.length second out
        = out ++ (rest.splitOnP (fun c => decide (c ∈ delims))).filter
            (fun s => decide (s ≠ [])) := by
  induction n with
  | zero =>
    intro rest pre out second hlen hsec
    have hr : rest = [] := List.length_eq_zero.mp (Nat.le_zero.mp hlen)
    subst hr
    rw [splitLoop]
    simp
  | succ n ih =>
    intro rest pre out second hlen hsec
    by_cases hr : rest = []
    · subst hr
      rw [splitLoop]
      simp
    · have hpos : 0 < rest.length := List.length_pos.mpr hr
      have hlt : pre.length < (pre ++ rest).length := by
        simp only [List.length_append]; omega
      rw [splitLoop, if_pos ⟨hsec, Nat.ne_of_lt hlt⟩, if_pos hlt]
      obtain ⟨seg, hseg, h⟩ := delim_decompose (fun c => decide (c ∈ delims)) rest
      rcases h with h | ⟨d, tail, hd, h⟩
      · subst h
        have hf : findFirstOf (pre ++ rest) delims pre.length = pre.length + rest.length := by
          simp only [findFirstOf, List.drop_left, findIdx_seg _ rest hseg]
        have hsl : slice (pre ++ rest) pre.length (pre.length + rest.length) = rest := by
          simpa using slice_append pre rest []
        simp only [hf, hsl]
        rw [splitLoop]
        have hne : pre.length ≠ pre.length + rest.length := by omega
        simp [hne, List.splitOnP_eq_single _ _ hseg, hr]
      · subst h
        have hf : findFirstOf (pre ++ (seg ++ d :: tail)) delims pre.length
            = pre.length + seg.length := by
          simp only [findFirstOf, List.drop_left, findIdx_seg_delim _ seg hseg d hd tail]
        have hsl := slice_append pre seg (d :: tail)
        simp only [hf, hsl]
        have hrec := ih tail (pre ++ seg ++ [d])
          (if pre.length ≠ pre.length + seg.length then out ++ [seg] else out)
          (pre.length + seg.length)
          (by simp only [List.length_append, List.length_cons] at hlen; omega)
          (by simp only [List.length_append, List.length_cons, List.length_nil]; omega)
        have e1 : pre ++ seg ++ [d] ++ tail = pre ++ (seg ++ d :: tail) := by simp
        have e2 : (pre ++ seg ++ [d]).length = pre.length + seg.length + 1 := by
          simp only [List.length_append, List.length_cons, List.length_nil]
        rw [e1, e2] at hrec
        rw [hrec, List.splitOnP_first _ _ hseg d hd]
        by_cases hs : seg = []
        · subst hs; simp
        · have : pre.length ≠ pre.length + seg.length := by
            have := List.length_pos.mpr hs; omega
          simp [this, hs]

/-- The function `split` returns the non-empty pieces of `str` between the
characters of `delims`, in order. -/
theorem split_eq (str delims : Str) :
    split str delims
      = (str.splitOnP (fun c => decide (c ∈ delims))).filter (fun s => decide (s ≠ [])) := by
  by_cases hs : str = []
  · subst hs
    rw [split, splitLoop]
    simp
  · have h := splitLoop_eq_aux delims str.length str [] [] 0 (Nat.le_refl _)
      (by simpa using (List.length_pos.mpr hs).ne)
    simpa [split] using h
/-! ## Decimal digits and `atoi` -/

theorem digitChar_spec (k : Nat) (hk : k < 10) :
    (Nat.digitChar k).isDigit = true ∧ digitVal (Nat.digitChar k) = k := by
  interval_cases k <;> decide

theorem toDigitsCore_spec (fuel : Nat) :
    ∀ (n : Nat) (ds : List Char), n < fuel → (∀ c ∈ ds, c.isDigit = true) →
      (∀ c ∈ Nat.toDigitsCore 10 fuel n ds, c.isDigit = true) ∧
      Nat.toDigitsCore 10 fuel n ds ≠ [] ∧
      (Nat.toDigitsCore 10 fuel n ds).foldl (fun a c => 10 * a + digitVal c) 0
        = ds.foldl (fun a c => 10 * a + digitVal c) n := by
  induction fuel with
  | zero => intro n ds h; omega
  | succ fuel ih =>
    intro n ds hn hds
    have hd := digitChar_spec (n % 10) (Nat.mod_lt _ (by decide))
    have hds1 : ∀ c ∈ Nat.digitChar (n % 10) :: ds, c.isDigit = true := by
      intro c hc
      rcases List.mem_cons.mp hc with rfl | hc
      · exact hd.1
      · exact hds c hc
    rw [Nat.toDigitsCore]
    by_cases h0 : n / 10 = 0
    · simp only [h0, if_true]
      refine ⟨hds1, by simp, ?_⟩
      have hn10 : n % 10 = n := by omega
      rw [hn10] at hd
      simp [List.foldl_cons, hd.2, hn10]
    · simp only [h0, if_false]
      have hlt : n / 10 < fuel := by omega
      obtain ⟨h1, h2, h3⟩ := ih (n / 10) (Nat.digitChar (n % 10) :: ds) hlt hds1
      refine ⟨h1, h2, ?_⟩
      rw [h3, List.foldl_cons, hd.2]
      have : 10 * (n / 10) + n % 10 = n := by omega
      rw [this]

theorem toDigits_spec (n : Nat) :
    (∀ c ∈ Nat.toDigits 10 n, c.isDigit = true) ∧ Nat.toDigits 10 n ≠ [] ∧
    (Nat.toDigits 10 n).foldl (fun a c => 10 * a + digitVal c) 0 = n := by
  have h := toDigitsCore_spec (n + 1) n [] (Nat.lt_succ_self n) (by simp)
  simpa [Nat.toDigits] using h

theorem isDigit_not_special (c : Char) (h : c.isDigit = true) :
    isspace c = false ∧ c ≠ '-' ∧ c ≠ '+' ∧ c ≠ ':' := by
  refine ⟨?_, ?_, ?_, ?_⟩
  · cases hs : isspace c
    · rfl
    · exfalso
      simp only [isspace, Bool.or_eq_true, decide_eq_true_eq] at hs
      rcases hs with ((((hs | hs) | hs) | hs) | hs) | hs <;> (subst hs; revert h; decide)
  all_goals (intro hc; subst hc; revert h; decide)

theorem longToInt_of_int (x : Int) (h1 : INT_MIN ≤ x) (h2 : x ≤ INT_MAX) :
    longToInt x = x := by
  simp only [INT_MIN, INT_MAX] at h1 h2
  simp only [longToInt]
  rw [Int.emod_eq_of_lt (by omega) (by omega)]
  omega

/-- When the number read fits an `int`, `atoi` returns it with its sign. -/
theorem atoi_in_range (s : Str) (h : atoiMagnitude s < 2 ^ 31) :
    atoi s = if (atoiSign s).1 then -(atoiMagnitude s : Int) else (atoiMagnitude s : Int) := by
  have hm : (atoiMagnitude s : Int) < 2147483648 := by
    have : atoiMagnitude s < 2147483648 := h
    omega
  simp only [atoi, strtol, LONG_MIN, LONG_MAX]
  split_ifs
  · rw [max_eq_left (by omega)]
    exact longToInt_of_int _ (by simp only [INT_MIN]; omega) (by simp only [INT_MAX]; omega)
  · rw [min_eq_left (by omega)]
    exact longToInt_of_int _ (by simp only [INT_MIN]; omega) (by simp only [INT_MAX]; omega)

/-- On a non-empty string of decimal digits, `atoi` reads no sign and reads
the value of the digits. -/
theorem atoi_digits (ds : List Char) (hds : ∀ c ∈ ds, c.isDigit = true) (hne : ds ≠ []) :
    (atoiSign ds).1 = false ∧
    atoiMagnitude ds = ds.foldl (fun a c => 10 * a + digitVal c) 0 := by
  cases ds with
  | nil => exact absurd rfl hne
  | cons c cs =>
    have hc := isDigit_not_special c (hds c (List.mem_cons_self _ _))
    have htw : (c :: cs).takeWhile Char.isDigit = c :: cs := by
      rw [List.takeWhile_eq_self_iff]
      exact hds
    have hdw : (c :: cs).dropWhile isspace = c :: cs := by
      simp [List.dropWhile_cons, hc.1]
    have hsign : atoiSign (c :: cs) = (false, c :: cs) := by
      simp only [atoiSign, hdw, hc.2.1, hc.2.2.1, if_false]
    constructor
    · rw [hsign]
    · simp only [atoiMagnitude, hsign, htw]

/-- The decimal digits of a number below `2^31` are read back by `atoi`. -/
theorem atoi_toDigits (n : Nat) (hn : n < 2 ^ 31) : atoi (Nat.toDigits 10 n) = (n : Int) := by
  obtain ⟨h1, h2, h3⟩ := toDigits_spec n
  obtain ⟨hs, hm⟩ := atoi_digits _ h1 h2
  rw [h3] at hm
  rw [atoi_in_range _ (by rw [hm]; exact hn), hs, hm]
  simp

/-- Beyond the range of `int` the embedding gives what `(int) strtol` gives
with a `long` of 64 bits: the low 32 bits of the number, and of `LONG_MAX`
for a number beyond `long`. -/
theorem atoi_beyond_int :
    atoi "2147483648".toList = -2147483648 ∧ atoi "99999999999999999999".toList = -1 := by
  decide

/-! ## `parseArg<ActionConfig>` on the gesture grammar -/

theorem colon_delim (x : Char) : decide (x ∈ ":".toList) = true ↔ x = ':' := by
  simp

theorem split_colon1 (a : Str) (ha : ':' ∉ a) (hne : a ≠ []) :
    split a ":".toList = [a] := by
  rw [split_eq, List.splitOnP_eq_single]
  · simp [hne]
  · intro x hx hp
    rw [colon_delim] at hp
    exact ha (hp ▸ hx)

theorem split_colon_cons (a rest : Str) (ha : ':' ∉ a) (hne : a ≠ []) :
    split (a ++ ':' :: rest) ":".toList = a :: split rest ":".toList := by
  rw [split_eq, split_eq, List.splitOnP_first]
  · simp [hne]
  · intro x hx hp
    rw [colon_delim] at hp
    exact ha (hp ▸ hx)
  · simp

theorem split_colon2 (a b : Str) (ha : ':' ∉ a) (hb : ':' ∉ b) (hane : a ≠ []) (hbne : b ≠ []) :
    split (a ++ ':' :: b) ":".toList = [a, b] := by
  rw [split_colon_cons a _ ha hane, split_colon1 b hb hbne]

theorem split_colon3 (a b c : Str) (ha : ':' ∉ a) (hb : ':' ∉ b) (hc : ':' ∉ c)
    (hane : a ≠ []) (hbne : b ≠ []) (hcne : c ≠ []) :
    split (a ++ ':' :: (b ++ ':' :: c)) ":".toList = [a, b, c] := by
  rw [split_colon_cons a _ ha hane, split_colon2 b c hb hc hbne hcne]

theorem toDigits_no_colon (n : Nat) : ':' ∉ Nat.toDigits 10 n := by
  intro h
  exact (isDigit_not_special _ ((toDigits_spec n).1 _ h)).2.2.2 rfl

/-- C5. For every number `n` below `2^31` written in decimal:
`Swipe:<d>:<n>` parses to the Swipe descriptor of direction `d` and `n`
fingers for each of the four swipe directions, `Pinch:<d>:<n>` parses to
the Pinch descriptor of direction `d` and `n` fingers for each of the two
pinch directions, and `Tap:<n>` parses to a Tap descriptor of `n` fingers. -/
theorem parseArg_gesture_grammar (n : Nat) (hn : n < 2 ^ 31) :
    (∀ d : SwipeDirection,
      parseArg_ActionConfig ("Swipe:".toList ++ d.keyword ++ ":".toList ++ (Nat.repr n).toList)
        = .value { type := .Swipe, direction := .swipe d, fingers := (n : Int) }) ∧
    (∀ d : PinchDirection,
      parseArg_ActionConfig ("Pinch:".toList ++ d.keyword ++ ":".toList ++ (Nat.repr n).toList)
        = .value { type := .Pinch, direction := .pinch d, fingers := (n : Int) }) ∧
    (∃ a : ActionConfig,
      parseArg_ActionConfig ("Tap:".toList ++ (Nat.repr n).toList) = .value a ∧
        a.type = .Tap ∧ a.fingers = (n : Int)) := by
  have hrepr : (Nat.repr n).toList = Nat.toDigits 10 n := rfl
  have hcol := toDigits_no_colon n
  have hne := (toDigits_spec n).2.1
  have hat := atoi_toDigits n hn
  rw [hrepr]
  refine ⟨?_, ?_, ?_⟩
  · intro d
    have hs : split ("Swipe:".toList ++ d.keyword ++ ":".toList ++ Nat.toDigits 10 n)
        ":".toList = ["Swipe".toList, d.keyword, Nat.toDigits 10 n] := by
      have := split_colon3 "Swipe".toList d.keyword (Nat.toDigits 10 n) (by decide)
        (by cases d <;> decide) hcol (by decide) (by cases d <;> decide) hne
      simpa using this
    rw [parseArg_ActionConfig, hs]
    cases d <;> simp [hat, SwipeDirection.keyword]
  · intro d
    have hs : split ("Pinch:".toList ++ d.keyword ++ ":".toList ++ Nat.toDigits 10 n)
        ":".toList = ["Pinch".toList, d.keyword, Nat.toDigits 10 n] := by
      have := split_colon3 "Pinch".toList d.keyword (Nat.toDigits 10 n) (by decide)
        (by cases d <;> decide) hcol (by decide) (by cases d <;> decide) hne
      simpa using this
    rw [parseArg_ActionConfig, hs]
    cases d <;> simp [hat, PinchDirection.keyword]
  · have hs : split ("Tap:".toList ++ Nat.toDigits 10 n) ":".toList
        = ["Tap".toList, Nat.toDigits 10 n] := by
      have := split_colon2 "Tap".toList (Nat.toDigits 10 n) (by decide) hcol (by decide) hne
      simpa using this
    rw [parseArg_ActionConfig, hs]
    simp [hat]

theorem parseArg_gesture_grammar_witness :
    (2 : Nat) < 2 ^ 31 ∧
    parseArg_ActionConfig "Swipe:Up:2".toList
      = .value { type := .Swipe, direction := .swipe .Up, fingers := 2 } ∧
    parseArg_ActionConfig "Pinch:Out:2".toList
      = .value { type := .Pinch, direction := .pinch .Out, fingers := 2 } :=
  ⟨by decide, (parseArg_gesture_grammar 2 (by decide)).1 .Up,
    (parseArg_gesture_grammar 2 (by decide)).2.1 .Out⟩
/-! ## The tokens that `parseArg<ActionConfig>` accepts -/

theorem split_colon_eq (tok : Str) :
    split tok ":".toList = (tok.splitOn ':').filter (fun s => decide (s ≠ [])) := by
  rw [split_eq, List.splitOn]
  have hp : (fun c : Char => decide (c ∈ ":".toList)) = (fun c => c == ':') := by
    funext c
    by_cases h : c = ':' <;> simp [h]
  rw [hp]

/-- C6, counterexample. The token `Tap::1`, cut at each `:`, gives the three
pieces `Tap`, the empty text and `1`, which do not have the shape of the
gesture grammar; `parseArg<ActionConfig>` accepts it all the same. -/
theorem parseArg_accepts_empty_segment :
    "Tap::1".toList.splitOn ':' = ["Tap".toList, [], "1".toList] ∧
    gestureShape ("Tap::1".toList.splitOn ':') = false ∧
    ∃ a, parseArg_ActionConfig "Tap::1".toList = .value a ∧ a.type = .Tap ∧ a.fingers = 1 := by
  refine ⟨by decide, by decide, { type := .Tap, direction := defaultDirection, fingers := 1 },
    ?_, rfl, rfl⟩
  rw [parseArg_ActionConfig, split_colon_eq]
  decide

/-- C6, amended. `parseArg<ActionConfig>` succeeds exactly on the tokens
whose non-empty pieces between `:` characters have the shape of the gesture
grammar (`split` drops the empty pieces before the shape is looked at);
every other token yields a failure and no descriptor. -/
theorem parseArg_succeeds_iff_shape (tok : Str) :
    isError (parseArg_ActionConfig tok) = false ↔
      gestureShape ((tok.splitOn ':').filter (fun s => decide (s ≠ []))) = true := by
  rw [parseArg_ActionConfig, split_colon_eq]
  generalize (tok.splitOn ':').filter (fun s => decide (s ≠ [])) = toks
  rcases toks with _ | ⟨a, _ | ⟨b, _ | ⟨c, _ | ⟨d, rest⟩⟩⟩⟩
  · simp [isError, gestureShape]
  · simp only [gestureShape]
    split_ifs <;> simp_all [isError]
  · simp only [gestureShape]
    split_ifs <;> simp_all [isError]
  · simp only [gestureShape, List.getD_cons_succ, List.getD_cons_zero]
    split_ifs <;> simp_all [isError]
  · simp only [gestureShape]
    split_ifs <;> simp_all [isError]
/-! ## Failures of `parseArg<ActionConfig>` on a bad direction -/

theorem split_colon_piece (a : Str) (ha : ':' ∉ a) :
    split a ":".toList = if a ≠ [] then [a] else [] := by
  by_cases hne : a = []
  · subst hne
    rw [split_eq]
    simp
  · rw [split_colon1 a ha hne]
    simp [hne]

theorem split_colon_step (a rest : Str) (ha : ':' ∉ a) :
    split (a ++ ':' :: rest) ":".toList
      = (if a ≠ [] then [a] else []) ++ split rest ":".toList := by
  by_cases hne : a = []
  · subst hne
    rw [split_eq, split_eq]
    simp
  · rw [split_colon_cons a rest ha hne]
    simp [hne]

/-- C7, counterexample. On `Swipe:Foo:2` the failure message is
`Unknown direction: Foo`: it names the bad value and not the gesture kind. -/
theorem parseArg_direction_message_without_kind :
    parseArg_ActionConfig "Swipe:Foo:2".toList = .error "Unknown direction: Foo".toList ∧
    ¬ ("Swipe".toList <:+: "Unknown direction: Foo".toList) := by
  refine ⟨?_, by decide⟩
  rw [parseArg_ActionConfig, split_colon_eq]
  decide

/-- C7, amended. On `Swipe:<d>:<f>` with `d` not a swipe direction and on
`Pinch:<d>:<f>` with `d` not a pinch direction (`d` and `f` without `:`),
`parseArg<ActionConfig>` fails. When `d` and `f` are both non-empty the
message is `Unknown direction: <d>`, which names the bad value; when one of
them is empty the message is `Expected Swipe:direction:fingers`,
respectively `Expected Pinch:direction:fingers`. -/
theorem parseArg_bad_direction (d f : Str) (hd : ':' ∉ d) (hf : ':' ∉ f) :
    (d ∉ ["Up".toList, "Down".toList, "Left".toList, "Right".toList] →
      parseArg_ActionConfig ("Swipe:".toList ++ d ++ ":".toList ++ f)
        = .error (if d ≠ [] ∧ f ≠ [] then "Unknown direction: ".toList ++ d
            else "Expected Swipe:direction:fingers".toList)) ∧
    (d ∉ ["In".toList, "Out".toList] →
      parseArg_ActionConfig ("Pinch:".toList ++ d ++ ":".toList ++ f)
        = .error (if d ≠ [] ∧ f ≠ [] then "Unknown direction: ".toList ++ d
            else "Expected Pinch:direction:fingers".toList)) := by
  have hs : ∀ kind : Str, ':' ∉ kind → kind ≠ [] →
      split (kind ++ ":".toList ++ d ++ ":".toList ++ f) ":".toList
        = kind :: ((if d ≠ [] then [d] else []) ++ (if f ≠ [] then [f] else [])) := by
    intro kind hk hkne
    have e : kind ++ ":".toList ++ d ++ ":".toList ++ f = kind ++ ':' :: (d ++ ':' :: f) := by
      simp
    rw [e, split_colon_cons kind _ hk hkne, split_colon_step d f hd, split_colon_piece f hf]
  constructor
  · intro hbad
    have h := hs "Swipe".toList (by decide) (by decide)
    have e : "Swipe:".toList ++ d ++ ":".toList ++ f
        = "Swipe".toList ++ ":".toList ++ d ++ ":".toList ++ f := by simp
    rw [e, parseArg_ActionConfig, h]
    simp at hbad
    by_cases hdne : d = [] <;> by_cases hfne : f = [] <;> simp [hdne, hfne, hbad]
  · intro hbad
    have h := hs "Pinch".toList (by decide) (by decide)
    have e : "Pinch:".toList ++ d ++ ":".toList ++ f
        = "Pinch".toList ++ ":".toList ++ d ++ ":".toList ++ f := by simp
    rw [e, parseArg_ActionConfig, h]
    simp at hbad
    by_cases hdne : d = [] <;> by_cases hfne : f = [] <;> simp [hdne, hfne, hbad]

theorem parseArg_bad_direction_witness :
    ':' ∉ "Sideways".toList ∧ ':' ∉ "3".toList ∧
    "Sideways".toList ∉ ["In".toList, "Out".toList] ∧
    parseArg_ActionConfig "Pinch:Sideways:3".toList
      = .error "Unknown direction: Sideways".toList :=
  ⟨by decide, by decide, by decide,
    (parseArg_bad_direction "Sideways".toList "3".toList (by decide) (by decide)).2 (by decide)⟩
/-! ## The finger count -/

/-- A minus sign is read only when one follows the leading white space. -/
theorem atoiSign_neg (s : Str) (h : (atoiSign s).1 = true) :
    ∃ t, s.dropWhile isspace = '-' :: t := by
  cases hs : s.dropWhile isspace with
  | nil => simp [atoiSign, hs] at h
  | cons c t =>
    by_cases hc : c = '-'
    · exact ⟨t, by rw [hc]⟩
    · exfalso
      simp only [atoiSign, hs, hc, if_false] at h
      split_ifs at h

/-- C8, counterexample. The token `Tap:-1` parses, and the finger count of
the descriptor is `-1`. -/
theorem parseArg_negative_fingers :
    ∃ a, parseArg_ActionConfig "Tap:-1".toList = .value a ∧ a.type = .Tap ∧
      a.fingers = -1 ∧ ¬ (0 ≤ a.fingers) := by
  refine ⟨{ type := .Tap, direction := defaultDirection, fingers := -1 }, ?_, rfl, rfl,
    by decide⟩
  rw [parseArg_ActionConfig, split_colon_eq]
  decide

/-- C8, amended. On every token that `parseArg<ActionConfig>` accepts, the
finger count of the descriptor is what `atoi` returns on the last non-empty
piece of the token. When the number read from that piece (the decimal
digits after the leading white space and the optional sign, 0 when there is
no digit) is below `2^31`, the finger count is that number, negated when the
sign is a minus: it is negative only when a minus sign follows the leading
white space of the piece, and it is not negative on a piece without a minus
sign. -/
theorem parseArg_fingers (tok : Str) (a : ActionConfig)
    (h : parseArg_ActionConfig tok = .value a) :
    ∃ seg, (split tok ":".toList).getLast? = some seg ∧ a.fingers = atoi seg ∧
      (atoiMagnitude seg < 2 ^ 31 →
        a.fingers = (if (atoiSign seg).1 then -(atoiMagnitude seg : Int)
          else (atoiMagnitude seg : Int)) ∧
        (a.fingers < 0 → ∃ t, seg.dropWhile isspace = '-' :: t) ∧
        ('-' ∉ seg → 0 ≤ a.fingers)) := by
  have key : ∃ seg, (split tok ":".toList).getLast? = some seg ∧ a.fingers = atoi seg := by
    rw [parseArg_ActionConfig] at h
    generalize split tok ":".toList = toks at h
    rcases toks with _ | ⟨x, _ | ⟨y, _ | ⟨z, _ | ⟨w, rest⟩⟩⟩⟩
    · simp at h
    · simp only [List.length_singleton] at h
      split_ifs at h <;> simp_all
    · simp only [List.length_cons, List.length_nil, List.getD_cons_succ,
        List.getD_cons_zero] at h
      split_ifs at h
      all_goals first
        | (exfalso; simp_all; done)
        | (simp only [ErrorOr.value.injEq] at h; subst h; exact ⟨y, rfl, rfl⟩)
    · simp only [List.length_cons, List.length_nil, List.getD_cons_succ,
        List.getD_cons_zero] at h
      split_ifs at h
      all_goals first
        | (exfalso; simp_all; done)
        | (simp only [ErrorOr.value.injEq] at h; subst h; exact ⟨z, rfl, rfl⟩)
    · simp only [List.length_cons] at h
      split_ifs at h <;> simp_all
  obtain ⟨seg, hseg, hfin⟩ := key
  refine ⟨seg, hseg, hfin, ?_⟩
  intro hrange
  have hval := atoi_in_range seg hrange
  rw [← hfin] at hval
  have hsign : a.fingers < 0 → ∃ t, seg.dropWhile isspace = '-' :: t := by
    intro hneg
    apply atoiSign_neg
    by_contra hns
    rw [hval, if_neg hns] at hneg
    omega
  refine ⟨hval, hsign, ?_⟩
  intro hno
  by_contra hlt
  obtain ⟨t, ht⟩ := hsign (by omega)
  have hmem : '-' ∈ seg.dropWhile isspace := by rw [ht]; exact List.mem_cons_self _ _
  exact hno ((List.dropWhile_suffix isspace).subset hmem)

theorem parseArg_fingers_witness :
    parseArg_ActionConfig "Swipe:Up:2".toList
      = .value { type := .Swipe, direction := .swipe .Up, fingers := 2 } ∧
    ∃ seg, (split "Swipe:Up:2".toList ":".toList).getLast? = some seg ∧
      (2 : Int) = atoi seg ∧
      (atoiMagnitude seg < 2 ^ 31 →
        (2 : Int) = (if (atoiSign seg).1 then -(atoiMagnitude seg : Int)
          else (atoiMagnitude seg : Int)) ∧
        ((2 : Int) < 0 → ∃ t, seg.dropWhile isspace = '-' :: t) ∧
        ('-' ∉ seg → 0 ≤ (2 : Int))) :=
  have h : parseArg_ActionConfig "Swipe:Up:2".toList
      = .value { type := .Swipe, direction := .swipe .Up, fingers := 2 } := by
    rw [parseArg_ActionConfig, split_colon_eq]
    decide
  ⟨h, parseArg_fingers "Swipe:Up:2".toList _ h⟩

/-! ## Arity check and aggregation of argument errors -/

theorem parseArgs_arity (Args : List ArgType) (args : List Str)
    (h : args.length ≠ Args.length + 1) :
    parseArgs Args args
      = .error ("Invalid number of arguments for '".toList ++ args.headD [] ++
          "', expected ".toList ++ to_string Args.length ++ " got ".toList ++
          to_string (args.length - 1)) := by
  simp only [parseArgs, h, ne_eq, not_false_eq_true, if_true]

theorem call_arity (cmd : Command) (fuel : Nat) (l : Launcher) (toks : List Str)
    (h : toks.length ≠ cmd.Args.length + 1) :
    cmd.call fuel l toks
      = some (.error ("Invalid number of arguments for '".toList ++ toks.headD [] ++
          "', expected ".toList ++ to_string cmd.Args.length ++ " got ".toList ++
          to_string (toks.length - 1)), l) := by
  simp only [Command.call, parseArgs_arity cmd.Args toks h]

theorem parse_arity (cmd : Command) (l : Launcher) (toks : List Str)
    (h : toks.length ≠ cmd.Args.length + 1) :
    cmd.parse l toks
      = .error ("Invalid number of arguments for '".toList ++ toks.headD [] ++
          "', expected ".toList ++ to_string cmd.Args.length ++ " got ".toList ++
          to_string (toks.length - 1)) := by
  have h1 : toks.length ≠ (cmd.Args.map ToOwning).length + 1 := by
    rw [List.length_map]; exact h
  have h2 := parseArgs_arity (cmd.Args.map ToOwning) toks h1
  rw [List.length_map] at h2
  simp only [Command.parse, h2]

/-- C9. For each registered command `name` of declared arity `N` (`help`,
`show`, `hide`: 0; `launch`, `switch`: 1; `on`: 2) and every token list that
starts with `name` and whose length is not `N + 1`, run-now
(`Command::operator()`) returns, for any fuel, the failure
`Invalid number of arguments for '<name>', expected N got <length - 1>`
with the launcher unchanged, and compile-for-later (`Command::parse`)
returns the same failure. -/
theorem command_arity_mismatch (name : Str) (N : Nat) (toks : List Str) (fuel : Nat)
    (l : Launcher)
    (hreg : (name, N) ∈ [("help".toList, 0), ("show".toList, 0), ("hide".toList, 0),
      ("launch".toList, 1), ("switch".toList, 1), ("on".toList, 2)])
    (hfront : toks.head? = some name) (hlen : toks.length ≠ N + 1) :
    ∃ cmd, findCommand name = some cmd ∧ cmd.Args.length = N ∧
      cmd.call fuel l toks
        = some (.error ("Invalid number of arguments for '".toList ++ name ++
            "', expected ".toList ++ (Nat.repr N).toList ++ " got ".toList ++
            (Nat.repr (toks.length - 1)).toList), l) ∧
      cmd.parse l toks
        = .error ("Invalid number of arguments for '".toList ++ name ++
            "', expected ".toList ++ (Nat.repr N).toList ++ " got ".toList ++
            (Nat.repr (toks.length - 1)).toList) := by
  have hhead : toks.headD [] = name := by
    cases toks with
    | nil => simp at hfront
    | cons t ts =>
      simp only [List.head?_cons, Option.some.injEq] at hfront
      simp [hfront]
  have hgen : ∀ cmd : Command, findCommand name = some cmd → cmd.Args.length = N →
      ∃ cmd, findCommand name = some cmd ∧ cmd.Args.length = N ∧
      cmd.call fuel l toks
        = some (.error ("Invalid number of arguments for '".toList ++ name ++
            "', expected ".toList ++ (Nat.repr N).toList ++ " got ".toList ++
            (Nat.repr (toks.length - 1)).toList), l) ∧
      cmd.parse l toks
        = .error ("Invalid number of arguments for '".toList ++ name ++
            "', expected ".toList ++ (Nat.repr N).toList ++ " got ".toList ++
            (Nat.repr (toks.length - 1)).toList) := by
    intro cmd hfind hN
    have hl : toks.length ≠ cmd.Args.length + 1 := by rw [hN]; exact hlen
    refine ⟨cmd, hfind, hN, ?_, ?_⟩
    · rw [call_arity cmd fuel l toks hl, hhead, hN]
      rfl
    · rw [parse_arity cmd l toks hl, hhead, hN]
      rfl
  simp only [List.mem_cons, Prod.mk.injEq, List.mem_singleton, List.not_mem_nil,
    or_false] at hreg
  rcases hreg with ⟨h1, h2⟩ | ⟨h1, h2⟩ | ⟨h1, h2⟩ | ⟨h1, h2⟩ | ⟨h1, h2⟩ | ⟨h1, h2⟩
  all_goals
    subst h1 h2
    exact hgen _ rfl rfl

theorem command_arity_mismatch_witness :
    ("on".toList, 2) ∈ [("help".toList, 0), ("show".toList, 0), ("hide".toList, 0),
      ("launch".toList, 1), ("switch".toList, 1), ("on".toList, 2)] ∧
    ["on".toList, "Tap:2".toList].head? = some "on".toList ∧
    ["on".toList, "Tap:2".toList].length ≠ 2 + 1 ∧
    ∃ cmd, findCommand "on".toList = some cmd ∧ cmd.Args.length = 2 ∧
      cmd.call 0 ⟨[], [], ⟨[]⟩, []⟩ ["on".toList, "Tap:2".toList]
        = some (.error "Invalid number of arguments for 'on', expected 2 got 1".toList,
            ⟨[], [], ⟨[]⟩, []⟩) ∧
      cmd.parse ⟨[], [], ⟨[]⟩, []⟩ ["on".toList, "Tap:2".toList]
        = .error "Invalid number of arguments for 'on', expected 2 got 1".toList :=
  ⟨by decide, by decide, by decide,
    command_arity_mismatch "on".toList 2 ["on".toList, "Tap:2".toList] 0 ⟨[], [], ⟨[]⟩, []⟩
      (by decide) (by decide) (by decide)⟩
theorem anyError_hasError {α : Type} (args : List (ErrorOr α)) :
    args.foldr (fun a b => isError a || b) false = true ↔ ∃ r ∈ args, isError r = true := by
  induction args with
  | nil => simp
  | cons a args ih => simp [List.foldr_cons, ih]

theorem anyError_message {α : Type} (args : List (ErrorOr α)) :
    args.foldr (fun a acc => errorPart a ++ acc) [] = (args.map errorPart).flatten := by
  induction args with
  | nil => rfl
  | cons a args ih => simp [List.foldr_cons, ih]

/-- When one of its arguments is an error, `anyError` returns one error
whose message is made of the messages of the failing arguments, each
followed by a comma and a space, in order. -/
theorem anyError_of_error {α : Type} (args : List (ErrorOr α))
    (h : ∃ r ∈ args, isError r = true) :
    anyError args = .error (args.map errorPart).flatten := by
  have h1 := (anyError_hasError args).mpr h
  simp only [anyError, h1, Bool.not_true, Bool.false_eq_true, if_false, anyError_message]

theorem errorPart_infix {α : Type} (args : List (ErrorOr α)) (m : Str)
    (h : ErrorOr.error m ∈ args) : m <:+: (args.map errorPart).flatten := by
  have h1 : errorPart (ErrorOr.error m : ErrorOr α) ∈ args.map errorPart :=
    List.mem_map_of_mem errorPart h
  have h2 : errorPart (ErrorOr.error m : ErrorOr α) <:+: (args.map errorPart).flatten :=
    List.infix_of_mem_flatten h1
  exact List.IsInfix.trans (List.infix_append' [] m ", ".toList) h2

/-- C10. For every command (so for every registered one), every launcher
state and every token list of the command's arity: if some argument fails to
parse, run-now (`Command::operator()`) returns, for any fuel, one failure
and the launcher exactly as it was, so no handler has run; the message of
the failure is made of the messages of the failing arguments, each followed
by a comma and a space, and so contains each of them. -/
theorem command_all_or_nothing (cmd : Command) (toks : List Str) (fuel : Nat) (l : Launcher)
    (hlen : toks.length = cmd.Args.length + 1)
    (hfail : ∃ r ∈ List.zipWith parseArg cmd.Args toks.tail, isError r = true) :
    cmd.call fuel l toks
      = some (.error ((List.zipWith parseArg cmd.Args toks.tail).map errorPart).flatten, l) ∧
    ∀ m, ErrorOr.error m ∈ List.zipWith parseArg cmd.Args toks.tail →
      m <:+: ((List.zipWith parseArg cmd.Args toks.tail).map errorPart).flatten := by
  constructor
  · have h1 : ¬ (toks.length ≠ cmd.Args.length + 1) := by simp [hlen]
    simp only [Command.call, parseArgs, h1, if_false, anyError_of_error _ hfail]
  · intro m hm
    exact errorPart_infix _ m hm

theorem parseArg_Spin : parseArg_ActionConfig "Spin:1".toList
    = .error "Unknown gesture: Spin".toList := by
  rw [parseArg_ActionConfig, split_colon_eq]
  decide

theorem parseArg_on_Spin :
    List.zipWith parseArg [ArgType.ActionConfig, ArgType.string_view]
        ["Spin:1".toList, "show".toList]
      = [.error "Unknown gesture: Spin".toList, .value (.text "show".toList)] := by
  show [parseArg .ActionConfig "Spin:1".toList, parseArg .string_view "show".toList] = _
  simp only [parseArg, parseArg_Spin]

theorem command_all_or_nothing_witness :
    ["on".toList, "Spin:1".toList, "show".toList].length
      = (Command.mk .onAction [.ActionConfig, .string_view] []).Args.length + 1 ∧
    (∃ r ∈ List.zipWith parseArg (Command.mk .onAction [.ActionConfig, .string_view] []).Args
        ["on".toList, "Spin:1".toList, "show".toList].tail, isError r = true) ∧
    (Command.mk .onAction [.ActionConfig, .string_view] []).call 0 ⟨[], [], ⟨[]⟩, []⟩
        ["on".toList, "Spin:1".toList, "show".toList]
      = some (.error "Unknown gesture: Spin, ".toList, ⟨[], [], ⟨[]⟩, []⟩) :=
  have hfail : ∃ r ∈ List.zipWith parseArg
      (Command.mk .onAction [.ActionConfig, .string_view] []).Args
      ["on".toList, "Spin:1".toList, "show".toList].tail, isError r = true :=
    ⟨.error "Unknown gesture: Spin".toList,
      by show _ ∈ List.zipWith parseArg [ArgType.ActionConfig, ArgType.string_view]
            ["Spin:1".toList, "show".toList]
         rw [parseArg_on_Spin]
         exact List.mem_cons_self _ _,
      rfl⟩
  ⟨rfl, hfail, by
    have h := (command_all_or_nothing (Command.mk .onAction [.ActionConfig, .string_view] [])
      ["on".toList, "Spin:1".toList, "show".toList] 0 ⟨[], [], ⟨[]⟩, []⟩ rfl hfail).1
    have hz : List.zipWith parseArg
        (Command.mk .onAction [.ActionConfig, .string_view] []).Args
        ["on".toList, "Spin:1".toList, "show".toList].tail
        = [.error "Unknown gesture: Spin".toList, .value (.text "show".toList)] :=
      parseArg_on_Spin
    rw [hz] at h
    exact h⟩
/-! ## Text before an opening quote -/

/-- C20. For every word `u` without space or double quote and every text
`q` without double quote, `tokenize` of `u"q"` succeeds and returns exactly
`[q]`: the text before the opening quote is in no token. -/
theorem tokenize_drops_text_before_quote (u q : Str)
    (hu : u ≠ [] ∧ ' ' ∉ u ∧ dquote ∉ u) (hq : dquote ∉ q) :
    tokenize (u ++ dquote :: (q ++ [dquote])) = .value [q] := by
  have hsd : ¬ (dquote = ' ') := fun h => space_ne_dquote h.symm
  rw [tokenize_eq, tokenizeRest_word u hu.2.1 hu.2.2]
  simp only [List.nil_append, tokenizeRest, hsd, false_and, if_false, if_true,
    Bool.false_eq_true]
  rw [tokenizeRest_quoted q hq]
  simp [tokenizeRest, hsd]

theorem tokenize_drops_text_before_quote_witness :
    ("ab".toList ≠ [] ∧ ' ' ∉ "ab".toList ∧ dquote ∉ "ab".toList) ∧ dquote ∉ "cd".toList ∧
    tokenize ("ab".toList ++ dquote :: ("cd".toList ++ [dquote])) = .value ["cd".toList] :=
  ⟨by decide, by decide,
    tokenize_drops_text_before_quote "ab".toList "cd".toList (by decide) (by decide)⟩

/-! ## Run-now and compile-for-later -/

theorem parseArg_ToOwning (t : ArgType) (arg : Str) :
    parseArg (ToOwning t) arg = parseArg t arg := by
  cases t <;> rfl

theorem zipWith_parseArg_ToOwning (Args : List ArgType) :
    ∀ args : List Str,
      List.zipWith parseArg (Args.map ToOwning) args = List.zipWith parseArg Args args := by
  induction Args with
  | nil => intro args; simp
  | cons t ts ih =>
    intro args
    cases args with
    | nil => simp
    | cons a as => simp [List.zipWith_cons_cons, parseArg_ToOwning, ih]

/-- Forcing every parameter type to its owned form changes nothing in the
result of `parseArgs`. -/
theorem parseArgs_ToOwning (Args : List ArgType) (args : List Str) :
    parseArgs (Args.map ToOwning) args = parseArgs Args args := by
  simp only [parseArgs, List.length_map, zipWith_parseArg_ToOwning]

/-- C11. For every command (so for every registered one), launcher state
and token list: compile-for-later (`Command::parse`) fails with a message
exactly when the arity check and argument parsing of run-now fail with that
message, in which case run-now (`Command::operator()`) returns that failure
and the launcher unchanged; and when compile succeeds, running the returned
closure on the launcher state gives, for any fuel and so on each call from
that state, the result and the launcher state that run-now gives on the
same tokens. -/
theorem compile_agrees_with_run_now (cmd : Command) (l : Launcher) (toks : List Str) :
    (∀ m, cmd.parse l toks = .error m ↔ parseArgs cmd.Args toks = .error m) ∧
    (∀ m fuel, cmd.parse l toks = .error m → cmd.call fuel l toks = some (.error m, l)) ∧
    (∀ c fuel, cmd.parse l toks = .value c → c.run fuel l = cmd.call fuel l toks) := by
  simp only [Command.parse, Command.call, Closure.run, parseArgs_ToOwning]
  cases parseArgs cmd.Args toks with
  | error msg => simp
  | value argTuple =>
    refine ⟨by simp, by simp, ?_⟩
    intro c fuel hc
    simp only [ErrorOr.value.injEq] at hc
    subst hc
    rfl

/-! ## The dispatchers on an empty line and on an unknown command -/

/-- C12. On every line whose tokens are the empty sequence, `doCommand`
returns, for any fuel, the success with the empty message and the launcher
unchanged, and `getCommandFn` returns the failure `Empty command`. -/
theorem empty_line (l : Launcher) (line : Str) (fuel : Nat)
    (h : tokenize line = .value []) :
    doCommand fuel l line = some (.value [], l) ∧
    getCommandFn l line = .error "Empty command".toList := by
  simp only [doCommand, getCommandFn, h, and_self]

theorem empty_line_witness :
    tokenize [] = .value [] ∧
    doCommand 0 ⟨[], [], ⟨[]⟩, []⟩ [] = some (.value [], ⟨[], [], ⟨[]⟩, []⟩) ∧
    getCommandFn ⟨[], [], ⟨[]⟩, []⟩ [] = .error "Empty command".toList :=
  have h : tokenize [] = .value [] := by rw [tokenize_eq]; decide
  ⟨h, empty_line ⟨[], [], ⟨[]⟩, []⟩ [] 0 h⟩

theorem findCommand_none (name : Str)
    (h : name ∉ ["help".toList, "launch".toList, "show".toList, "hide".toList,
      "switch".toList, "on".toList]) :
    findCommand name = none := by
  have hm : ∀ e ∈ commands, e.1 ∈ ["help".toList, "launch".toList, "show".toList,
      "hide".toList, "switch".toList, "on".toList] := by decide
  rw [findCommand, Option.map_eq_none', List.find?_eq_none]
  intro e he hp
  rw [decide_eq_true_eq] at hp
  exact h (hp ▸ hm e he)

/-- C13. On every line whose tokens are `front :: rest` with `front` not
exactly one of `help`, `launch`, `show`, `hide`, `switch`, `on`, both
`doCommand` (for any fuel, with the launcher unchanged) and `getCommandFn`
fail with the message `Command <front> not found`. -/
theorem unknown_command (l : Launcher) (line front : Str) (rest : List Str) (fuel : Nat)
    (h : tokenize line = .value (front :: rest))
    (hn : front ∉ ["help".toList, "launch".toList, "show".toList, "hide".toList,
      "switch".toList, "on".toList]) :
    doCommand fuel l line
      = some (.error ("Command ".toList ++ front ++ " not found".toList), l) ∧
    getCommandFn l line = .error ("Command ".toList ++ front ++ " not found".toList) := by
  simp only [doCommand, getCommandFn, h, findCommand_none front hn, and_self]

theorem unknown_command_witness :
    tokenize "Launch Notes".toList = .value ["Launch".toList, "Notes".toList] ∧
    "Launch".toList ∉ ["help".toList, "launch".toList, "show".toList, "hide".toList,
      "switch".toList, "on".toList] ∧
    doCommand 0 ⟨[], [], ⟨[]⟩, []⟩ "Launch Notes".toList
      = some (.error "Command Launch not found".toList, ⟨[], [], ⟨[]⟩, []⟩) ∧
    getCommandFn ⟨[], [], ⟨[]⟩, []⟩ "Launch Notes".toList
      = .error "Command Launch not found".toList :=
  have h : tokenize "Launch Notes".toList = .value ["Launch".toList, "Notes".toList] := by
    rw [tokenize_eq]; decide
  ⟨h, by decide,
    unknown_command ⟨[], [], ⟨[]⟩, []⟩ "Launch Notes".toList "Launch".toList ["Notes".toList] 0
      h (by decide)⟩
/-! ## Dispatch of a tokenized line -/

theorem doCommand_tokens (l : Launcher) (line front : Str) (rest : List Str) (fuel : Nat)
    (cmd : Command) (h : tokenize line = .value (front :: rest))
    (hc : findCommand front = some cmd) :
    doCommand fuel l line = cmd.call fuel l (front :: rest) := by
  simp only [doCommand, h, hc]

theorem findCommand_on :
    findCommand "on".toList = some ⟨.onAction, [.ActionConfig, .string_view],
      "- on <gesture> <command> - execute command when the given action occurs".toList⟩ :=
  rfl

theorem findCommand_switch :
    findCommand "switch".toList = some ⟨.switchTo, [.string_view],
      ("- switch <next|prev|last> - Switch to the next, previous or last " ++
        "running app").toList⟩ :=
  rfl

/-- Run-now of `on` on the tokens `on`, `g`, `c`: the failure of the gesture
argument, or the handler `onAction` on the parsed gesture. -/
theorem call_on (cmd : Command) (hcmd : findCommand "on".toList = some cmd)
    (fuel : Nat) (l : Launcher) (g c : Str) :
    cmd.call fuel l ["on".toList, g, c] =
      match parseArg_ActionConfig g with
      | .error m => some (.error (m ++ ", ".toList), l)
      | .value a => some (onAction l a c) := by
  rw [findCommand_on] at hcmd
  cases hcmd
  simp only [Command.call, parseArgs, List.length_cons, List.length_nil, List.tail_cons,
    List.zipWith_cons_cons, List.zipWith_nil_right, parseArg]
  cases parseArg_ActionConfig g with
  | error m => simp [anyError, isError, errorPart]
  | value a => simp [anyError, isError, deref, applyFn]

/-- Run-now of `switch` on the tokens `switch`, `arg`: the handler
`switchTo`. -/
theorem call_switch (cmd : Command) (hcmd : findCommand "switch".toList = some cmd)
    (fuel : Nat) (l : Launcher) (arg : Str) :
    cmd.call fuel l ["switch".toList, arg] = switchTo fuel l arg := by
  rw [findCommand_switch] at hcmd
  cases hcmd
  simp [Command.call, parseArgs, parseArg, anyError, isError, deref, applyFn]

theorem doCommand_switch_next (fuel : Nat) (l : Launcher) :
    doCommand fuel l "switch next".toList = switchTo fuel l "next".toList := by
  have h : tokenize "switch next".toList = .value ["switch".toList, "next".toList] := by
    rw [tokenize_eq]; decide
  rw [doCommand_tokens l _ _ _ fuel _ h findCommand_switch, call_switch _ findCommand_switch]

theorem doCommand_switch_prev (fuel : Nat) (l : Launcher) :
    doCommand fuel l "switch prev".toList = switchTo fuel l "prev".toList := by
  have h : tokenize "switch prev".toList = .value ["switch".toList, "prev".toList] := by
    rw [tokenize_eq]; decide
  rw [doCommand_tokens l _ _ _ fuel _ h findCommand_switch, call_switch _ findCommand_switch]

theorem doCommand_switch_last (fuel : Nat) (l : Launcher) :
    doCommand fuel l "switch last".toList = switchTo fuel l "last".toList := by
  have h : tokenize "switch last".toList = .value ["switch".toList, "last".toList] := by
    rw [tokenize_eq]; decide
  rw [doCommand_tokens l _ _ _ fuel _ h findCommand_switch, call_switch _ findCommand_switch]

/-! ## `switch next` and `switch prev` with no active app -/

theorem findIdx_no_match (apps : List App) (path : Str)
    (h : ∀ app ∈ apps, app.path ≠ path) :
    apps.findIdx (fun app => decide (app.path = path)) = apps.length := by
  apply List.findIdx_eq_length_of_false
  intro app hm
  simpa using h app hm

/-- C18. In every launcher state with no active app (`currentAppPath` empty,
or the path of no app), `doCommand` on `switch next` and on `switch prev`
returns, for any fuel, the success `No apps running` and the launcher
unchanged: no call of `switchApp` is made. -/
theorem switch_without_active_app (l : Launcher) (fuel : Nat)
    (h : l.currentAppPath = [] ∨ ∀ app ∈ l.apps, app.path ≠ l.currentAppPath) :
    doCommand fuel l "switch next".toList = some (.value "No apps running".toList, l) ∧
    doCommand fuel l "switch prev".toList = some (.value "No apps running".toList, l) := by
  have h1 : l.currentAppPath = [] ∨
      l.apps.findIdx (fun app => decide (app.path = l.currentAppPath)) = l.apps.length := by
    rcases h with h | h
    · exact Or.inl h
    · exact Or.inr (findIdx_no_match _ _ h)
  have h2 : l.currentAppPath = [] ∨
      l.apps.reverse.findIdx (fun app => decide (app.path = l.currentAppPath))
        = l.apps.reverse.length := by
    rcases h with h | h
    · exact Or.inl h
    · exact Or.inr (findIdx_no_match _ _ (fun app hm => h app (List.mem_reverse.mp hm)))
  have hne : ¬ ("prev".toList = "next".toList) := by decide
  constructor
  · rw [doCommand_switch_next]
    simp only [switchTo, if_true, h1]
  · rw [doCommand_switch_prev]
    simp only [switchTo, hne, if_false, if_true, h2]

theorem switch_without_active_app_witness :
    ((⟨[⟨"A".toList, "/a".toList, true, 1⟩], [], ⟨[]⟩, []⟩ : Launcher).currentAppPath = [] ∨
      ∀ app ∈ (⟨[⟨"A".toList, "/a".toList, true, 1⟩], [], ⟨[]⟩, []⟩ : Launcher).apps,
        app.path ≠ (⟨[⟨"A".toList, "/a".toList, true, 1⟩], [], ⟨[]⟩, []⟩ : Launcher).currentAppPath) ∧
    doCommand 5 ⟨[⟨"A".toList, "/a".toList, true, 1⟩], [], ⟨[]⟩, []⟩ "switch next".toList
      = some (.value "No apps running".toList, ⟨[⟨"A".toList, "/a".toList, true, 1⟩], [], ⟨[]⟩, []⟩) ∧
    doCommand 5 ⟨[⟨"A".toList, "/a".toList, true, 1⟩], [], ⟨[]⟩, []⟩ "switch prev".toList
      = some (.value "No apps running".toList, ⟨[⟨"A".toList, "/a".toList, true, 1⟩], [], ⟨[]⟩, []⟩) :=
  ⟨Or.inl rfl,
    switch_without_active_app ⟨[⟨"A".toList, "/a".toList, true, 1⟩], [], ⟨[]⟩, []⟩ 5 (Or.inl rfl)⟩
/-! ## The command `on` -/

/-- C14. For every launcher state, every gesture spec `g` that parses to
the descriptor `a` and every command string `c` that `getCommandFn`
compiles to the closure `fn`: run-now of `on` on the tokens `on`, `g`, `c`,
and `doCommand` on every line with these tokens, return, for any fuel, the
success `OK` and the launcher in which one binding, of `a` to `fn`, is
added at the end of `config.actions`; the earlier bindings, the apps,
`currentAppPath` and the recorded calls are as before, so no handler of the
nested command has run. -/
theorem on_appends_binding (l : Launcher) (g c : Str) (a : ActionConfig) (fn : VoidFn)
    (fuel : Nat) (hg : parseArg_ActionConfig g = .value a)
    (hc : getCommandFn l c = .value fn) :
    (∃ cmd, findCommand "on".toList = some cmd ∧
      cmd.call fuel l ["on".toList, g, c]
        = some (.value "OK".toList,
            ⟨l.apps, l.currentAppPath,
              ⟨l.config.actions ++ [{ config := a, command := fn }]⟩, l.calls⟩)) ∧
    (∀ line, tokenize line = .value ["on".toList, g, c] →
      doCommand fuel l line
        = some (.value "OK".toList,
            ⟨l.apps, l.currentAppPath,
              ⟨l.config.actions ++ [{ config := a, command := fn }]⟩, l.calls⟩)) := by
  constructor
  · refine ⟨_, findCommand_on, ?_⟩
    rw [call_on _ findCommand_on]
    simp only [hg, onAction, hc]
  · intro line htok
    rw [doCommand_tokens l _ _ _ fuel _ htok findCommand_on, call_on _ findCommand_on]
    simp only [hg, onAction, hc]

theorem tokenize_on_Tap_show :
    tokenize "on Tap:2 show".toList = .value ["on".toList, "Tap:2".toList, "show".toList] := by
  rw [tokenize_eq]; decide

theorem parseArg_Tap2 :
    parseArg_ActionConfig "Tap:2".toList
      = .value { type := .Tap, direction := defaultDirection, fingers := 2 } := by
  rw [parseArg_ActionConfig, split_colon_eq]
  decide

theorem getCommandFn_show (l : Launcher) :
    getCommandFn l "show".toList = .value { fn := { fn := .«show», args := [] } } := by
  have h : tokenize "show".toList = .value ["show".toList] := by rw [tokenize_eq]; decide
  rw [getCommandFn, h]
  rfl

theorem on_appends_binding_witness :
    parseArg_ActionConfig "Tap:2".toList
      = .value { type := .Tap, direction := defaultDirection, fingers := 2 } ∧
    getCommandFn ⟨[], [], ⟨[]⟩, []⟩ "show".toList
      = .value { fn := { fn := .«show», args := [] } } ∧
    doCommand 0 ⟨[], [], ⟨[]⟩, []⟩ "on Tap:2 show".toList
      = some (.value "OK".toList,
          ⟨[], [], ⟨[{ config := { type := .Tap, direction := defaultDirection, fingers := 2 },
                       command := { fn := { fn := .«show», args := [] } } }]⟩, []⟩) :=
  ⟨parseArg_Tap2, getCommandFn_show _,
    (on_appends_binding ⟨[], [], ⟨[]⟩, []⟩ "Tap:2".toList "show".toList
      _ _ 0 parseArg_Tap2 (getCommandFn_show _)).2 _ tokenize_on_Tap_show⟩

theorem tokenize_on_Spin_show :
    tokenize "on Spin:1 show".toList
      = .value ["on".toList, "Spin:1".toList, "show".toList] := by
  rw [tokenize_eq]; decide

/-- C15, counterexample. On the line `on Spin:1 show`, whose gesture spec
does not parse, the failure message of `doCommand` is
`Unknown gesture: Spin, `: it does not contain the command string `show`. -/
theorem on_bad_gesture_message_without_command :
    doCommand 0 ⟨[], [], ⟨[]⟩, []⟩ "on Spin:1 show".toList
      = some (.error "Unknown gesture: Spin, ".toList, ⟨[], [], ⟨[]⟩, []⟩) ∧
    ¬ ("show".toList <:+: "Unknown gesture: Spin, ".toList) := by
  refine ⟨?_, by decide⟩
  rw [doCommand_tokens _ _ _ _ 0 _ tokenize_on_Spin_show findCommand_on,
    call_on _ findCommand_on, parseArg_Spin]
  rfl

/-- C15, amended. On every line whose tokens are `on`, `g`, `c`: when the
gesture spec `g` fails to parse with the message `m`, `doCommand` fails with
`m` followed by a comma and a space, and the command string is not looked
at; when `g` parses and `getCommandFn` fails on the command string `c` with
the message `m`, `doCommand` fails with
`Can't add action: <m> for command: "<c>"`, which contains `c`. In both
cases the launcher is unchanged, so no binding is added. -/
theorem on_failure (l : Launcher) (line g c : Str) (fuel : Nat)
    (htok : tokenize line = .value ["on".toList, g, c]) :
    (∀ m, parseArg_ActionConfig g = .error m →
      doCommand fuel l line = some (.error (m ++ ", ".toList), l)) ∧
    (∀ a m, parseArg_ActionConfig g = .value a → getCommandFn l c = .error m →
      doCommand fuel l line
        = some (.error ("Can't add action: ".toList ++ m ++ " for command: ".toList ++
            [dquote] ++ c ++ [dquote]), l) ∧
      c <:+: "Can't add action: ".toList ++ m ++ " for command: ".toList ++
            [dquote] ++ c ++ [dquote]) := by
  rw [doCommand_tokens l _ _ _ fuel _ htok findCommand_on, call_on _ findCommand_on]
  constructor
  · intro m hm
    simp only [hm]
  · intro a m ha hm
    refine ⟨by simp only [ha, onAction, hm], ?_⟩
    exact ⟨"Can't add action: ".toList ++ m ++ " for command: ".toList ++ [dquote],
      [dquote], rfl⟩

theorem tokenize_on_Tap_fly :
    tokenize "on Tap:2 fly".toList = .value ["on".toList, "Tap:2".toList, "fly".toList] := by
  rw [tokenize_eq]; decide

theorem getCommandFn_fly (l : Launcher) :
    getCommandFn l "fly".toList = .error "Command fly not found".toList := by
  have h : tokenize "fly".toList = .value ["fly".toList] := by rw [tokenize_eq]; decide
  rw [getCommandFn, h]
  rfl

theorem on_failure_witness :
    tokenize "on Tap:2 fly".toList = .value ["on".toList, "Tap:2".toList, "fly".toList] ∧
    doCommand 0 ⟨[], [], ⟨[]⟩, []⟩ "on Tap:2 fly".toList
      = some (.error ("Can't add action: Command fly not found for command: ".toList ++
          [dquote] ++ "fly".toList ++ [dquote]), ⟨[], [], ⟨[]⟩, []⟩) :=
  ⟨tokenize_on_Tap_fly,
    ((on_failure ⟨[], [], ⟨[]⟩, []⟩ "on Tap:2 fly".toList "Tap:2".toList "fly".toList 0
      tokenize_on_Tap_fly).2 _ _ parseArg_Tap2 (getCommandFn_fly _)).1⟩
/-! ## The walk of `getNext` -/

theorem mod_wrap (a n : Nat) (h : a < 2 * n) :
    a % n = if a < n then a else a - n := by
  split_ifs with hlt
  · exact Nat.mod_eq_of_lt hlt
  · rw [Nat.mod_eq_sub_mod (by omega), Nat.mod_eq_of_lt (by omega)]

theorem runningAt_eq (seq : List App) (p : Nat) (app : App) (h : seq[p]? = some app) :
    runningAt seq p = app.running := by
  simp only [runningAt, h]

/-- One turn of the loop of `getNext`, at the `k`-th position after
`start`. -/
theorem getNextLoop_step (seq : List App) (start k fuel : Nat) (hs : start < seq.length)
    (hk1 : 1 ≤ k) (hkn : k < seq.length) :
    getNextLoop seq start (fuel + 1) ((start + (k - 1)) % seq.length + 1)
      = if runningAt seq ((start + k) % seq.length) = true
        then some ((start + k) % seq.length)
        else getNextLoop seq start fuel ((start + k) % seq.length + 1) := by
  have h1 := mod_wrap (start + (k - 1)) seq.length (by omega)
  have h2 := mod_wrap (start + k) seq.length (by omega)
  have hne : (start + (k - 1)) % seq.length + 1 ≠ start := by
    rw [h1]; split_ifs <;> omega
  have hit : (if (start + (k - 1)) % seq.length + 1 = seq.length then 0
      else (start + (k - 1)) % seq.length + 1) = (start + k) % seq.length := by
    rw [h1, h2]; split_ifs <;> omega
  have hlt : (start + k) % seq.length < seq.length := Nat.mod_lt _ (by omega)
  rw [getNextLoop, if_pos hne]
  simp only [hit]
  have hget : seq[(start + k) % seq.length]? = some (seq[(start + k) % seq.length]) :=
    List.getElem?_eq_getElem hlt
  rw [hget, runningAt_eq seq _ _ hget]

/-- The loop of `getNext` along the positions of the walk, from its `k`-th
to its `k + m - 1`-th: it stops at the first running one, and goes on after
them when none is running. -/
theorem getNextLoop_walk (seq : List App) (start : Nat) (hs : start < seq.length) (m : Nat) :
    ∀ k fuel, 1 ≤ k → k + m ≤ seq.length →
      match ((List.range' k m).map (fun d => (start + d) % seq.length)).find?
          (runningAt seq) with
      | some j =>
        getNextLoop seq start (fuel + m) ((start + (k - 1)) % seq.length + 1) = some j
      | none =>
        getNextLoop seq start (fuel + m) ((start + (k - 1)) % seq.length + 1)
          = getNextLoop seq start fuel ((start + (k + m - 1)) % seq.length + 1) := by
  induction m with
  | zero => intro k fuel hk1 hkm; simp
  | succ m ih =>
    intro k fuel hk1 hkm
    have hstep := getNextLoop_step seq start k (fuel + m) hs hk1 (by omega)
    have e : fuel + (m + 1) = fuel + m + 1 := rfl
    rw [List.range'_succ, List.map_cons, List.find?_cons, e, hstep]
    cases hr : runningAt seq ((start + k) % seq.length) with
    | true => simp
    | false =>
      have ih1 := ih (k + 1) fuel (by omega) (by omega)
      have e1 : k + 1 - 1 = k := by omega
      have e2 : k + 1 + m - 1 = k + (m + 1) - 1 := by omega
      rw [e1, e2] at ih1
      simpa using ih1
/-- When the walk meets a running app, `getNext` returns the first one
met. -/
theorem getNext_found (seq : List App) (start j fuel : Nat) (hs : start < seq.length)
    (hj : firstRunningAfter seq start = some j) (hf : seq.length ≤ fuel) :
    getNext fuel seq start = some j := by
  have h := getNextLoop_walk seq start hs (seq.length - 1) 1 (fuel - (seq.length - 1))
    (Nat.le_refl 1) (by omega)
  rw [firstRunningAfter] at hj
  rw [hj] at h
  have e1 : (start + (1 - 1)) % seq.length + 1 = start + 1 := by
    simp only [Nat.sub_self, Nat.add_zero, Nat.mod_eq_of_lt hs]
  have e2 : fuel - (seq.length - 1) + (seq.length - 1) = fuel := by omega
  simp only [e1, e2] at h
  exact h

/-- When the walk meets no running app, `getNext` comes back to `start`:
it returns `start` when `start` is not the first position, and also when
`start` is the first position and holds a running app. -/
theorem getNext_not_found (seq : List App) (start fuel : Nat) (hs : start < seq.length)
    (hnone : firstRunningAfter seq start = none) (hf : seq.length ≤ fuel)
    (hstart : 0 < start ∨ runningAt seq start = true) :
    getNext fuel seq start = some start := by
  have h := getNextLoop_walk seq start hs (seq.length - 1) 1 (fuel - (seq.length - 1))
    (Nat.le_refl 1) (by omega)
  rw [firstRunningAfter] at hnone
  rw [hnone] at h
  have e1 : (start + (1 - 1)) % seq.length + 1 = start + 1 := by
    simp only [Nat.sub_self, Nat.add_zero, Nat.mod_eq_of_lt hs]
  have e2 : fuel - (seq.length - 1) + (seq.length - 1) = fuel := by omega
  have e3 : 1 + (seq.length - 1) - 1 = seq.length - 1 := by omega
  simp only [e1, e2, e3] at h
  rw [getNext, h]
  have hw := mod_wrap (start + (seq.length - 1)) seq.length (by omega)
  obtain ⟨f, hfe⟩ : ∃ f, fuel - (seq.length - 1) = f + 1 := ⟨fuel - seq.length, by omega⟩
  rw [hfe]
  by_cases h0 : 0 < start
  · have e4 : (start + (seq.length - 1)) % seq.length + 1 = start := by
      rw [hw]; split_ifs <;> omega
    rw [e4, getNextLoop]
    simp
  · have hz : start = 0 := by omega
    have hrun : runningAt seq start = true := by
      rcases hstart with h | h
      · exact absurd h h0
      · exact h
    subst hz
    have e4 : (0 + (seq.length - 1)) % seq.length + 1 = seq.length := by
      rw [hw]; split_ifs <;> omega
    rw [e4, getNextLoop, if_pos (by omega)]
    simp only [if_true]
    have hget : seq[0]? = some (seq[0]) := List.getElem?_eq_getElem hs
    rw [runningAt_eq seq 0 _ hget] at hrun
    rw [hget]
    simp [hrun]

/-- Every position other than `start` is a position of the walk. -/
theorem walk_covers (n start p : Nat) (hs : start < n) (hp : p < n) (hne : p ≠ start) :
    p ∈ (List.range' 1 (n - 1)).map (fun d => (start + d) % n) := by
  rw [List.mem_map]
  by_cases h : start < p
  · refine ⟨p - start, ?_, ?_⟩
    · rw [List.mem_range'_1]; omega
    · have hw := mod_wrap (start + (p - start)) n (by omega)
      rw [hw]; split_ifs <;> omega
  · refine ⟨p + n - start, ?_, ?_⟩
    · rw [List.mem_range'_1]; omega
    · have hw := mod_wrap (start + (p + n - start)) n (by omega)
      rw [hw]; split_ifs <;> omega

theorem runningAt_lt (seq : List App) (p : Nat) (h : runningAt seq p = true) :
    p < seq.length := by
  by_contra hge
  have : seq[p]? = none := List.getElem?_eq_none (by omega)
  simp [runningAt, this] at h

/-- C19. For every non-empty app list and every start position in it, when
at least one app of the list is running, `getNext` returns, for any fuel
not below the length of the list, a position that holds a running app; when
the only running app is the one at `start`, that position is `start`. -/
theorem getNext_terminates (seq : List App) (start : Nat) (hs : start < seq.length)
    (hrun : ∃ p, runningAt seq p = true) :
    ∃ r, runningAt seq r = true ∧
      (∀ fuel, seq.length ≤ fuel → getNext fuel seq start = some r) ∧
      ((∀ p, runningAt seq p = true → p = start) → r = start) := by
  cases hfr : firstRunningAfter seq start with
  | some j =>
    have hj : runningAt seq j = true := by
      rw [firstRunningAfter] at hfr
      exact List.find?_some hfr
    exact ⟨j, hj, fun fuel hf => getNext_found seq start j fuel hs hfr hf,
      fun honly => honly j hj⟩
  | none =>
    have hstart : runningAt seq start = true := by
      obtain ⟨p, hp⟩ := hrun
      by_cases hps : p = start
      · rw [← hps]; exact hp
      · exfalso
        have hmem := walk_covers seq.length start p hs (runningAt_lt seq p hp) hps
        rw [firstRunningAfter, List.find?_eq_none] at hfr
        exact hfr p hmem hp
    exact ⟨start, hstart,
      fun fuel hf => getNext_not_found seq start fuel hs hfr hf (Or.inr hstart),
      fun _ => rfl⟩

theorem getNext_terminates_witness :
    (1 : Nat) < [(⟨[], [], false, 0⟩ : App), ⟨[], [], true, 0⟩, ⟨[], [], false, 0⟩].length ∧
    (∃ p, runningAt [(⟨[], [], false, 0⟩ : App), ⟨[], [], true, 0⟩, ⟨[], [], false, 0⟩] p
      = true) ∧
    ∃ r, runningAt [(⟨[], [], false, 0⟩ : App), ⟨[], [], true, 0⟩, ⟨[], [], false, 0⟩] r = true ∧
      (∀ fuel, [(⟨[], [], false, 0⟩ : App), ⟨[], [], true, 0⟩, ⟨[], [], false, 0⟩].length ≤ fuel →
        getNext fuel [(⟨[], [], false, 0⟩ : App), ⟨[], [], true, 0⟩, ⟨[], [], false, 0⟩] 1
          = some r) ∧
      ((∀ p, runningAt [(⟨[], [], false, 0⟩ : App), ⟨[], [], true, 0⟩, ⟨[], [], false, 0⟩] p = true
        → p = 1) → r = 1) :=
  ⟨by decide, ⟨1, by decide⟩,
    getNext_terminates [(⟨[], [], false, 0⟩ : App), ⟨[], [], true, 0⟩, ⟨[], [], false, 0⟩] 1
      (by decide) ⟨1, by decide⟩⟩

/-- From the first position of a sequence in which no app is running, the
loop of `getNext` never stops: no fuel is enough. -/
theorem getNextLoop_diverges (seq : List App) (hno : ∀ p, runningAt seq p = false) :
    ∀ fuel it, 1 ≤ it → it ≤ seq.length → getNextLoop seq 0 fuel it = none := by
  intro fuel
  induction fuel with
  | zero => intro it _ _; rfl
  | succ fuel ih =>
    intro it h1 h2
    rw [getNextLoop, if_pos (by omega)]
    simp only
    have hlt : (if it = seq.length then 0 else it) < seq.length := by
      split_ifs <;> omega
    have hget : seq[if it = seq.length then 0 else it]?
        = some (seq[if it = seq.length then 0 else it]) := List.getElem?_eq_getElem hlt
    have hr := hno (if it = seq.length then 0 else it)
    rw [runningAt_eq seq _ _ hget] at hr
    rw [hget]
    simp only [hr, Bool.false_eq_true, if_false]
    exact ih _ (by omega) (by omega)

theorem getNext_diverges (seq : List App) (hne : seq ≠ [])
    (hno : ∀ p, runningAt seq p = false) (fuel : Nat) :
    getNext fuel seq 0 = none :=
  getNextLoop_diverges seq hno fuel 1 (Nat.le_refl 1) (List.length_pos.mpr hne)
/-! ## `switch next` and `switch prev` with another running app -/

/-- The walk from `start` meets a running app when a position other than
`start` holds one. -/
theorem firstRunningAfter_some (seq : List App) (start : Nat) (hs : start < seq.length)
    (hother : ∃ p, p ≠ start ∧ runningAt seq p = true) :
    ∃ j, firstRunningAfter seq start = some j := by
  obtain ⟨p, hne, hrun⟩ := hother
  cases hfr : firstRunningAfter seq start with
  | some j => exact ⟨j, rfl⟩
  | none =>
    exfalso
    rw [firstRunningAfter, List.find?_eq_none] at hfr
    exact hfr p (walk_covers seq.length _ p hs (runningAt_lt seq p hrun) hne) hrun

theorem findIdx_path_lt (seq : List App) (path : Str)
    (hin : ∃ app ∈ seq, app.path = path) :
    seq.findIdx (fun app => decide (app.path = path)) < seq.length := by
  apply List.findIdx_lt_length_of_exists
  obtain ⟨app, hm, hp⟩ := hin
  exact ⟨app, hm, by simpa using hp⟩

theorem runningAt_reverse (seq : List App) (p : Nat) (hp : p < seq.length) :
    runningAt seq.reverse p = runningAt seq (seq.length - 1 - p) := by
  simp only [runningAt, List.getElem?_reverse hp]

/-- Walking the reversed sequence forward is walking the sequence
backward. -/
theorem firstRunningBefore_reverse (seq : List App) (s : Nat) (hs : s < seq.length) :
    ∀ L : List Nat, (∀ d ∈ L, 1 ≤ d ∧ d < seq.length) →
      (L.map (fun d => (seq.length - 1 - s + seq.length - d) % seq.length)).find?
          (runningAt seq)
        = (((L.map (fun d => (s + d) % seq.reverse.length)).find?
            (runningAt seq.reverse)).map (fun it => seq.length - 1 - it)) := by
  intro L
  induction L with
  | nil => intro _; rfl
  | cons d L ih =>
    intro hL
    obtain ⟨hd1, hdn⟩ := hL d (List.mem_cons_self _ _)
    have ih1 := ih (fun x hx => hL x (List.mem_cons_of_mem _ hx))
    have h1 := mod_wrap (s + d) seq.length (by omega)
    have h2 := mod_wrap (seq.length - 1 - s + seq.length - d) seq.length (by omega)
    have hpos : (seq.length - 1 - s + seq.length - d) % seq.length
        = seq.length - 1 - (s + d) % seq.length := by
      rw [h1, h2]; split_ifs <;> omega
    have hlt : (s + d) % seq.length < seq.length := Nat.mod_lt _ (by omega)
    have hrun := runningAt_reverse seq ((s + d) % seq.length) hlt
    simp only [List.map_cons, List.find?_cons, List.length_reverse, hpos, hrun]
    cases runningAt seq (seq.length - 1 - (s + d) % seq.length) with
    | true => simp
    | false =>
      simp only [List.length_reverse] at ih1
      simpa using ih1

/-- C16. In every launcher state whose `currentAppPath` is not empty and is
the path of one of the apps, for any fuel not below the number of apps:
when a position other than that of the current app (the first app of that
path) holds a running app, `doCommand` on `switch next` returns `OK` and the
launcher switched to the first running app met when walking `apps` forward
from just past the current app, wrapping from the end to the beginning; when
a position other than that of the current app (the last app of that path)
holds a running app, `doCommand` on `switch prev` returns `OK` and the
launcher switched to the first running app met when walking `apps` backward
from just before the current app, wrapping from the beginning to the end. -/
theorem switch_next_prev (l : Launcher) (fuel : Nat)
    (hcur : l.currentAppPath ≠ [])
    (hin : ∃ app ∈ l.apps, app.path = l.currentAppPath)
    (hf : l.apps.length ≤ fuel) :
    ((∃ p, p ≠ l.apps.findIdx (fun app => decide (app.path = l.currentAppPath)) ∧
        runningAt l.apps p = true) →
      ∃ j, firstRunningAfter l.apps
          (l.apps.findIdx (fun app => decide (app.path = l.currentAppPath))) = some j ∧
        doCommand fuel l "switch next".toList
          = some (.value "OK".toList, l.switchApp j)) ∧
    ((∃ p, p ≠ l.apps.length - 1 -
          l.apps.reverse.findIdx (fun app => decide (app.path = l.currentAppPath)) ∧
        runningAt l.apps p = true) →
      ∃ j, firstRunningBefore l.apps (l.apps.length - 1 -
          l.apps.reverse.findIdx (fun app => decide (app.path = l.currentAppPath))) = some j ∧
        doCommand fuel l "switch prev".toList
          = some (.value "OK".toList, l.switchApp j)) := by
  constructor
  · intro hother
    have hs := findIdx_path_lt l.apps l.currentAppPath hin
    obtain ⟨j, hj⟩ := firstRunningAfter_some l.apps _ hs hother
    refine ⟨j, hj, ?_⟩
    have hg := getNext_found l.apps _ j fuel hs hj hf
    rw [doCommand_switch_next]
    simp only [switchTo, if_true, hcur, false_or, Nat.ne_of_lt hs, if_false, hg]
  · intro hother
    have hin1 : ∃ app ∈ l.apps.reverse, app.path = l.currentAppPath := by
      obtain ⟨app, hm, hp⟩ := hin
      exact ⟨app, List.mem_reverse.mpr hm, hp⟩
    have hs := findIdx_path_lt l.apps.reverse l.currentAppPath hin1
    have hs1 : l.apps.reverse.findIdx (fun app => decide (app.path = l.currentAppPath))
        < l.apps.length := by simpa using hs
    have hother1 : ∃ p, p ≠ l.apps.reverse.findIdx
        (fun app => decide (app.path = l.currentAppPath)) ∧
        runningAt l.apps.reverse p = true := by
      obtain ⟨p, hne, hrun⟩ := hother
      have hp := runningAt_lt l.apps p hrun
      refine ⟨l.apps.length - 1 - p, by omega, ?_⟩
      rw [runningAt_reverse l.apps _ (by omega)]
      have e : l.apps.length - 1 - (l.apps.length - 1 - p) = p := by omega
      rw [e, hrun]
    obtain ⟨it, hit⟩ := firstRunningAfter_some l.apps.reverse _ hs hother1
    have hg := getNext_found l.apps.reverse _ it fuel hs hit (by simpa using hf)
    refine ⟨l.apps.length - 1 - it, ?_, ?_⟩
    · have hrev := firstRunningBefore_reverse l.apps _ hs1 (List.range' 1 (l.apps.length - 1))
        (by intro d hd; rw [List.mem_range'_1] at hd; omega)
      rw [firstRunningAfter, List.length_reverse] at hit
      rw [List.length_reverse, hit] at hrev
      rw [firstRunningBefore, hrev]
      rfl
    · have hne : ¬ ("prev".toList = "next".toList) := by decide
      rw [doCommand_switch_prev]
      simp only [switchTo, hne, if_false, if_true, hcur, false_or, Nat.ne_of_lt hs, hg]

theorem switch_next_prev_witness :
    demoLauncher.currentAppPath ≠ [] ∧
    (∃ app ∈ demoLauncher.apps, app.path = demoLauncher.currentAppPath) ∧
    demoLauncher.apps.length ≤ 3 ∧
    (∃ j, firstRunningAfter demoLauncher.apps
          (demoLauncher.apps.findIdx
            (fun app => decide (app.path = demoLauncher.currentAppPath))) = some j ∧
      doCommand 3 demoLauncher "switch next".toList
        = some (.value "OK".toList, demoLauncher.switchApp j)) ∧
    (∃ j, firstRunningBefore demoLauncher.apps (demoLauncher.apps.length - 1 -
          demoLauncher.apps.reverse.findIdx
            (fun app => decide (app.path = demoLauncher.currentAppPath))) = some j ∧
      doCommand 3 demoLauncher "switch prev".toList
        = some (.value "OK".toList, demoLauncher.switchApp j)) :=
  ⟨by decide, by decide, by decide,
    (switch_next_prev demoLauncher 3 (by decide) (by decide) (by decide)).1 ⟨2, by decide⟩,
    (switch_next_prev demoLauncher 3 (by decide) (by decide) (by decide)).2 ⟨2, by decide⟩⟩

/-! ## `switch last` -/

/-- The loop of `switch last` keeps, of the apps it has gone through, the
running app other than the current one of greatest time stamp, the earliest
one among ties. -/
theorem lastLoop_spec (all : List App) (cur : Option Nat) :
    ∀ (rest pre : List App) (r : Option Nat), all = pre ++ rest →
      LastAmong all cur pre.length r →
      LastAmong all cur all.length (lastLoop all cur rest pre.length r) := by
  intro rest
  induction rest with
  | nil =>
    intro pre r hall hr
    have : all.length = pre.length := by rw [hall]; simp
    rw [this]
    exact hr
  | cons app rest ih =>
    intro pre r hall hr
    have hget : all[pre.length]? = some app := by
      rw [hall, List.getElem?_append_right (Nat.le_refl _)]
      simp
    have hrun : runningAt all pre.length = app.running := runningAt_eq all _ app hget
    have hts : lastActivatedAt all pre.length = app.lastActivated := by
      simp only [lastActivatedAt, hget, Option.map_some', Option.getD_some]
    have hnext : ∀ r1, LastAmong all cur (pre.length + 1) r1 →
        LastAmong all cur all.length (lastLoop all cur rest (pre.length + 1) r1) := by
      intro r1 hr1
      have := ih (pre ++ [app]) r1 (by rw [hall]; simp) (by simpa using hr1)
      simpa using this
    have hunf : ∀ r0, lastLoop all cur (app :: rest) pre.length r0 =
        if app.running = true ∧ some pre.length ≠ cur ∧
          (match r0 with
            | none => true
            | some j => decide (app.lastActivated >
                ((all[j]?).map App.lastActivated).getD 0)) = true
        then lastLoop all cur rest (pre.length + 1) (some pre.length)
        else lastLoop all cur rest (pre.length + 1) r0 := by
      intro r0
      cases r0 <;> simp [lastLoop]
    rw [hunf]
    by_cases hc : lastCandidate all cur pre.length
    · have hc1 : app.running = true ∧ some pre.length ≠ cur := by
        rw [← hrun]; exact hc
      cases r with
      | none =>
        simp only [hc1.1, hc1.2, ne_eq, not_false_eq_true, and_self, if_true]
        apply hnext
        refine ⟨Nat.lt_succ_self _, hc, ?_⟩
        intro k hk hck
        have hk1 : k = pre.length := by
          by_contra hne
          exact hr k (by omega) hck
        subst hk1
        exact ⟨Nat.le_refl _, fun _ => Nat.le_refl _⟩
      | some j =>
        obtain ⟨hj, hcj, hbest⟩ := hr
        by_cases hgt : app.lastActivated > lastActivatedAt all j
        · have hgt1 : app.lastActivated > ((all[j]?).map App.lastActivated).getD 0 := hgt
          simp only [hc1.1, hc1.2, ne_eq, not_false_eq_true, hgt1, decide_True, and_self,
            if_true]
          apply hnext
          refine ⟨Nat.lt_succ_self _, hc, ?_⟩
          intro k hk hck
          by_cases hk1 : k = pre.length
          · subst hk1
            exact ⟨Nat.le_refl _, fun _ => Nat.le_refl _⟩
          · have := hbest k (by omega) hck
            rw [hts]
            constructor
            · omega
            · intro he; omega
        · have hgt1 : ¬ (app.lastActivated > ((all[j]?).map App.lastActivated).getD 0) := hgt
          simp only [hgt1, decide_False, Bool.false_eq_true, and_false, if_false]
          apply hnext
          refine ⟨by omega, hcj, ?_⟩
          intro k hk hck
          by_cases hk1 : k = pre.length
          · subst hk1
            rw [hts]
            constructor
            · omega
            · intro _; omega
          · exact hbest k (by omega) hck
    · have hc1 : ¬ (app.running = true ∧ some pre.length ≠ cur) := by
        rw [← hrun]; exact hc
      have hgoal : LastAmong all cur all.length (lastLoop all cur rest (pre.length + 1) r) := by
        apply hnext
        cases r with
        | none =>
          intro k hk hck
          by_cases hk1 : k = pre.length
          · subst hk1; exact hc hck
          · exact hr k (by omega) hck
        | some j =>
          obtain ⟨hj, hcj, hbest⟩ := hr
          refine ⟨by omega, hcj, ?_⟩
          intro k hk hck
          by_cases hk1 : k = pre.length
          · subst hk1; exact absurd hck hc
          · exact hbest k (by omega) hck
      split_ifs with hcond
      · exact absurd ⟨hcond.1, hcond.2.1⟩ hc1
      · exact hgoal
/-- C17. In every launcher state in which an app other than the current one
is running, `doCommand` on `switch last` returns, for any fuel, `OK` and the
launcher switched to an app that is running, is not the current app, and
whose time stamp `lastActivated` is not below that of any running app other
than the current one; among the apps of that time stamp it is the earliest
of the list. -/
theorem switch_last (l : Launcher) (fuel : Nat)
    (hother : ∃ p, runningAt l.apps p = true ∧ some p ≠ l.getCurrentApp) :
    ∃ j, runningAt l.apps j = true ∧ some j ≠ l.getCurrentApp ∧
      (∀ k, runningAt l.apps k = true → some k ≠ l.getCurrentApp →
        lastActivatedAt l.apps k ≤ lastActivatedAt l.apps j ∧
        (lastActivatedAt l.apps k = lastActivatedAt l.apps j → j ≤ k)) ∧
      doCommand fuel l "switch last".toList = some (.value "OK".toList, l.switchApp j) := by
  have hspec := lastLoop_spec l.apps l.getCurrentApp l.apps [] none rfl
    (fun k hk => absurd hk (Nat.not_lt_zero k))
  have h1 : ¬ ("last".toList = "next".toList) := by decide
  have h2 : ¬ ("last".toList = "prev".toList) := by decide
  simp only [List.length_nil] at hspec
  cases hr : lastLoop l.apps l.getCurrentApp l.apps 0 none with
  | none =>
    exfalso
    rw [hr] at hspec
    obtain ⟨p, hp, hpc⟩ := hother
    exact hspec p (runningAt_lt l.apps p hp) ⟨hp, hpc⟩
  | some j =>
    rw [hr] at hspec
    obtain ⟨_, hcj, hbest⟩ := hspec
    refine ⟨j, hcj.1, hcj.2, ?_, ?_⟩
    · intro k hk hkc
      exact hbest k (runningAt_lt l.apps k hk) ⟨hk, hkc⟩
    · rw [doCommand_switch_last]
      simp only [switchTo, h1, h2, if_false, if_true, hr]

theorem switch_last_witness :
    (∃ p, runningAt demoLauncher.apps p = true ∧ some p ≠ demoLauncher.getCurrentApp) ∧
    ∃ j, runningAt demoLauncher.apps j = true ∧ some j ≠ demoLauncher.getCurrentApp ∧
      (∀ k, runningAt demoLauncher.apps k = true → some k ≠ demoLauncher.getCurrentApp →
        lastActivatedAt demoLauncher.apps k ≤ lastActivatedAt demoLauncher.apps j ∧
        (lastActivatedAt demoLauncher.apps k = lastActivatedAt demoLauncher.apps j → j ≤ k)) ∧
      doCommand 0 demoLauncher "switch last".toList
        = some (.value "OK".toList, demoLauncher.switchApp j) :=
  ⟨⟨2, by decide⟩, switch_last demoLauncher 0 ⟨2, by decide⟩⟩

end Rocket
